import Mathlib

/-!
# Verification of the lazily-propagated maximum segment tree (`handson2/src/lib.rs`)

This file gives a shallow embedding of the Rust `MaxSegmentTree` and proves the
specification's claims about it.

Modelling conventions:

* `u32` values are modelled as `Nat`.  The only arithmetic the tree performs on
  values is `min` / `max`, which agree with the `u32` operations on all values
  below `2^32`; the constant `u32MAX` models `u32::MAX`.  The `u32::MAX`
  sentinel passed to `handle_pending_update` only influences the *returned*
  value, which every caller that passes the sentinel discards, so widening the
  value domain to `Nat` does not change any stored state.
* The three backing vectors (`tree`, `ranges`, `lazy_updates`) are modelled as
  total functions `Nat → _` together with the allocated length `size` (`4 * n`
  in `new`).  Point assignment `v[i] = x` becomes `Function.update`.
  In-bounds access of every operation is proved separately (claim about the
  `4 * n` allocation) via access mirrors that collect the indices used.
* The Rust recursions terminate because each recursive call descends to a
  strictly shorter stored range; the embedding makes every recursive function
  structural by adding an explicit `fuel : Nat` first argument that decreases
  at each call, with the out-of-fuel result never reached at the call sites
  used (the wrappers pass `size = 4 * n`, and each theorem carries the bound
  showing the fuel is never exhausted).  `&mut self` methods take and return
  the state; `&self` methods are pure functions of the state.
-/

/-- `u32::MAX`. -/
def u32MAX : Nat := 4294967295

/-- The `MaxSegmentTree` struct: three flat vectors of length `size` (`4 * n`),
modelled as total functions out of `Nat`. -/
@[ext]
structure MaxSegmentTree where
  size : Nat
  tree : Nat → Nat
  ranges : Nat → Nat × Nat
  lazy_updates : Nat → Option Nat

namespace MaxSegmentTree

/-- `self.tree[i] = v`. -/
def setTree (st : MaxSegmentTree) (i v : Nat) : MaxSegmentTree :=
  { st with tree := Function.update st.tree i v }

/-- `self.ranges[i] = r`. -/
def setRange (st : MaxSegmentTree) (i : Nat) (r : Nat × Nat) : MaxSegmentTree :=
  { st with ranges := Function.update st.ranges i r }

/-- `self.lazy_updates[i] = v`. -/
def setLazy (st : MaxSegmentTree) (i : Nat) (v : Option Nat) : MaxSegmentTree :=
  { st with lazy_updates := Function.update st.lazy_updates i v }

/-- Source `get_left_child`: `2 * node_idx + 1`. -/
def get_left_child (node_idx : Nat) : Nat := 2 * node_idx + 1

/-- Source `get_right_child`: `2 * node_idx + 2`. -/
def get_right_child (node_idx : Nat) : Nat := 2 * node_idx + 2

/-- Source `propagate_one_child`: merge `value` into the stored lazy update of
`node` by `min` (or store it if none is present). -/
def propagate_one_child (st : MaxSegmentTree) (node value : Nat) : MaxSegmentTree :=
  setLazy st node (some (match st.lazy_updates node with
    | some left_lazy => min left_lazy value
    | none => value))

/-- Source `propagate_lazy_update`: push `value` into both children's lazy
slots when the node is not a leaf (`node_start < node_end`). -/
def propagate_lazy_update (st : MaxSegmentTree) (current value node_start node_end : Nat) :
    MaxSegmentTree :=
  if node_start < node_end then
    propagate_one_child
      (propagate_one_child st (get_left_child current) value)
      (get_right_child current) value
  else st

/-- Source `handle_pending_update`: `take()` the pending update, fold it into
the incoming `value`, apply it to this node's stored value, and push it to the
children; returns the folded value together with the new state. -/
def handle_pending_update (st : MaxSegmentTree) (current value node_start node_end : Nat) :
    Nat × MaxSegmentTree :=
  match st.lazy_updates current with
  | some update =>
      let st1 := setLazy st current none
      let st2 := setTree st1 current (min (st1.tree current) update)
      (min value update, propagate_lazy_update st2 current update node_start node_end)
  | none => (value, st)

/-- Source `build`: record the range, fill a leaf from `arr`, or build both
halves split at `mid = (start + end) / 2` and combine with `max`.  The `fuel`
argument makes the recursion structural; `new` passes `arr.len()`, which is
enough for the `O(log n)` build depth. -/
def build (fuel : Nat) (arr : List Nat) (node_idx s e : Nat) (st : MaxSegmentTree) :
    MaxSegmentTree :=
  match fuel with
  | 0 => st
  | fuel + 1 =>
    let st0 := setRange st node_idx (s, e)
    if s = e then
      setTree st0 node_idx (arr.getD s 0)
    else
      let mid := (s + e) / 2
      let st1 := build fuel arr (get_left_child node_idx) s mid st0
      let st2 := build fuel arr (get_right_child node_idx) (mid + 1) e st1
      setTree st2 node_idx
        (max (st2.tree (get_left_child node_idx)) (st2.tree (get_right_child node_idx)))

/-- Source `new`: allocate the three vectors at `4 * n` and build over
`[0, n - 1]` from the root. -/
def new (arr : List Nat) : MaxSegmentTree :=
  let n := arr.length
  build n arr 0 0 (n - 1)
    { size := 4 * n
      tree := fun _ => 0
      ranges := fun _ => (0, 0)
      lazy_updates := fun _ => none }

/-- Source `range_update_recursive`: lazily clamp the range `[qs, qe]`
(0-based) by `value`, resolving any pending update at each visited node first. -/
def range_update_recursive (fuel : Nat) (st : MaxSegmentTree) (current qs qe value : Nat) :
    MaxSegmentTree :=
  match fuel with
  | 0 => st
  | fuel + 1 =>
    let node_start := (st.ranges current).1
    let node_end := (st.ranges current).2
    if qs ≤ node_start ∧ node_end ≤ qe then
      let p := handle_pending_update st current value node_start node_end
      let st2 := setTree p.2 current (min (p.2.tree current) p.1)
      propagate_lazy_update st2 current p.1 node_start node_end
    else if qe < node_start ∨ node_end < qs then
      (handle_pending_update st current u32MAX node_start node_end).2
    else
      let p := handle_pending_update st current value node_start node_end
      let mid := (node_start + node_end) / 2
      let st2 := range_update_recursive fuel p.2 (get_left_child current) qs (min mid qe) p.1
      let st3 := range_update_recursive fuel st2 (get_right_child current) (max (mid + 1) qs) qe p.1
      setTree st3 current
        (max (st3.tree (get_left_child current)) (st3.tree (get_right_child current)))

/-- Source `range_update`: translate the 1-based external range to 0-based and
clamp from the root. -/
def range_update (st : MaxSegmentTree) (s e value : Nat) : MaxSegmentTree :=
  range_update_recursive st.size st 0 (s - 1) (e - 1) value

/-- Source `range_max_query_lazy_recursive`: drain the pending update at every
visited node, then answer the range-max query over `[qs, qe]` (0-based),
returning `0` on no overlap.  Returns the result together with the mutated
state. -/
def range_max_query_lazy_recursive (fuel : Nat) (st : MaxSegmentTree) (current qs qe : Nat) :
    Nat × MaxSegmentTree :=
  match fuel with
  | 0 => (0, st)
  | fuel + 1 =>
    let node_start := (st.ranges current).1
    let node_end := (st.ranges current).2
    let st1 := (handle_pending_update st current u32MAX node_start node_end).2
    if qs ≤ node_start ∧ node_end ≤ qe then
      (st1.tree current, st1)
    else if qe < node_start ∨ node_end < qs then
      (0, st1)
    else
      let mid := (node_start + node_end) / 2
      let pl := range_max_query_lazy_recursive fuel st1 (get_left_child current) qs (min mid qe)
      let pr := range_max_query_lazy_recursive fuel pl.2 (get_right_child current) (max (mid + 1) qs) qe
      (max pl.1 pr.1, pr.2)

/-- Source `range_max_query_lazy`: translate the 1-based external range to
0-based and query from the root. -/
def range_max_query_lazy (st : MaxSegmentTree) (s e : Nat) : Nat × MaxSegmentTree :=
  range_max_query_lazy_recursive st.size st 0 (s - 1) (e - 1)

/-- Source `check_total_overlap`: count (with short-circuiting) occurrences of
`k` inside a node in total overlap, pruning subtrees whose max is below `k` and
short-circuiting to `1` when the node's value equals `k`. -/
def check_total_overlap (fuel : Nat) (st : MaxSegmentTree) (current s e k : Nat) : Nat :=
  match fuel with
  | 0 => 0
  | fuel + 1 =>
    if s = e then
      if st.tree current = k then 1 else 0
    else if st.tree current < k then 0
    else if st.tree current = k then 1
    else
      let mid := (s + e) / 2
      check_total_overlap fuel st (get_left_child current) s mid k +
      check_total_overlap fuel st (get_right_child current) (mid + 1) e k

/-- Source `is_there_recursive`: count occurrences of `k` in `[qs, qe]`
(indices passed through unchanged), descending with clipped query ranges. -/
def is_there_recursive (fuel : Nat) (st : MaxSegmentTree) (current qs qe k : Nat) : Nat :=
  match fuel with
  | 0 => 0
  | fuel + 1 =>
    let node_start := (st.ranges current).1
    let node_end := (st.ranges current).2
    if qs ≤ node_start ∧ node_end ≤ qe then
      if st.tree current < k then 0
      else check_total_overlap (fuel + 1) st current node_start node_end k
    else if qe < node_start ∨ node_end < qs then 0
    else
      let mid := (node_end + node_start) / 2
      is_there_recursive fuel st (get_left_child current) qs (min mid qe) k +
      is_there_recursive fuel st (get_right_child current) (max (mid + 1) qs) qe k

/-- Source `is_there`: `(count >= 1) as u32`.  Note: unlike `range_update` and
`range_max_query_lazy`, the start/end indices are passed through unchanged
(no `- 1` translation). -/
def is_there (st : MaxSegmentTree) (qs qe k : Nat) : Nat :=
  if 1 ≤ is_there_recursive st.size st 0 qs qe k then 1 else 0

/-! ## Specification-side definitions -/

/-- Apply an optional clamp: `min u x` when a clamp `u` is present. -/
def clampOf (c : Option Nat) (x : Nat) : Nat :=
  match c with
  | none => x
  | some u => min u x

/-- Merge two optional clamps by `min`. -/
def mergeO (c d : Option Nat) : Option Nat :=
  match c, d with
  | none, d => d
  | some u, none => some u
  | some u, some v => some (min u v)

/-- The effective aggregate of node `i`: its stored value with its own pending
update folded in. -/
def eff (st : MaxSegmentTree) (i : Nat) : Nat :=
  clampOf (st.lazy_updates i) (st.tree i)

/-- The logical (fully clamped) value of array position `j`, read through the
subtree rooted at node `i` covering `[s, e]` with the clamps `c` of strict
ancestors accumulated: descend to the leaf of `j`, folding in every pending
update on the path. -/
def logVal (fuel : Nat) (st : MaxSegmentTree) (i s e : Nat) (c : Option Nat) (j : Nat) : Nat :=
  match fuel with
  | 0 => 0
  | fuel + 1 =>
    let c1 := mergeO c (st.lazy_updates i)
    if s = e then clampOf c1 (st.tree i)
    else
      let mid := (s + e) / 2
      if j ≤ mid then logVal fuel st (get_left_child i) s mid c1 j
      else logVal fuel st (get_right_child i) (mid + 1) e c1 j

/-- The lazy-tree invariant maintained by the code: every internal node's
stored value is the `max` of its two children's *effective* values (children's
own pending updates folded in, deeper pending updates not). -/
def invB (fuel : Nat) (st : MaxSegmentTree) (i s e : Nat) : Bool :=
  match fuel with
  | 0 => false
  | fuel + 1 =>
    if s = e then true
    else
      let mid := (s + e) / 2
      (st.tree i == max (eff st (get_left_child i)) (eff st (get_right_child i))) &&
      invB fuel st (get_left_child i) s mid &&
      invB fuel st (get_right_child i) (mid + 1) e

/-- The range bookkeeping laid down by `build`: node `i` stores `(s, e)` and
its children split `[s, e]` at `mid = (s + e) / 2`. -/
def rangeOkB (fuel : Nat) (r : Nat → Nat × Nat) (i s e : Nat) : Bool :=
  match fuel with
  | 0 => false
  | fuel + 1 =>
    (r i == (s, e)) &&
    (if s = e then true
     else
       rangeOkB fuel r (get_left_child i) s ((s + e) / 2) &&
       rangeOkB fuel r (get_right_child i) ((s + e) / 2 + 1) e)

/-- No pending lazy update is outstanding at any node of the subtree. -/
def noLazyB (fuel : Nat) (st : MaxSegmentTree) (i s e : Nat) : Bool :=
  match fuel with
  | 0 => false
  | fuel + 1 =>
    (st.lazy_updates i == none) &&
    (if s = e then true
     else
       noLazyB fuel st (get_left_child i) s ((s + e) / 2) &&
       noLazyB fuel st (get_right_child i) ((s + e) / 2 + 1) e)

/-- Maximum of a list of naturals (`0` on the empty list). -/
def listMax (l : List Nat) : Nat := l.foldr max 0

/-- The inclusive index window `[a, b]` as a list (empty when `a > b`). -/
def winIdx (a b : Nat) : List Nat := List.range' a (b + 1 - a)

/-- `max` of `f` over `[qs, qe] ∩ [s, e]` (and `0` if that window is empty). -/
def windowMax (f : Nat → Nat) (qs qe s e : Nat) : Nat :=
  listMax ((winIdx (max s qs) (min e qe)).map f)

/-- Mathematical meaning of a sequence of 1-based clamp operations
`(start, end, value)` at 1-based position `i`, starting from `x`: fold `min`
over the values of the operations whose range covers `i`. -/
def clampFold (ops : List (Nat × Nat × Nat)) (i x : Nat) : Nat :=
  ops.foldl (fun acc op => if op.1 ≤ i ∧ i ≤ op.2.1 then min acc op.2.2 else acc) x

/-- Run a list of 1-based `range_update` operations `(start, end, value)`. -/
def applyOps (st : MaxSegmentTree) (ops : List (Nat × Nat × Nat)) : MaxSegmentTree :=
  ops.foldl (fun st op => range_update st op.1 op.2.1 op.2.2) st

/-- Validity of a list of 1-based clamp ranges against length `n`. -/
def opsValidB (n : Nat) (ops : List (Nat × Nat × Nat)) : Bool :=
  ops.all fun op => decide (1 ≤ op.1) && decide (op.1 ≤ op.2.1) && decide (op.2.1 ≤ n)

/-- `Descendant i k`: node index `k` lies in the (implicit, index-arithmetic)
subtree rooted at node index `i`. -/
inductive Descendant : Nat → Nat → Prop where
  | refl (i : Nat) : Descendant i i
  | left (i : Nat) {k : Nat} : Descendant (2 * i + 1) k → Descendant i k
  | right (i : Nat) {k : Nat} : Descendant (2 * i + 2) k → Descendant i k

/-- Two states agree (values and pending updates) on the whole subtree of
node `i`. -/
def EqOn (st st' : MaxSegmentTree) (i : Nat) : Prop :=
  ∀ k, Descendant i k → st.tree k = st'.tree k ∧ st.lazy_updates k = st'.lazy_updates k

/-- Depth-indexed bound invariant for nodes of the build shape over an array of
length `n`: at depth `d`, the node index is below `2 ^ (d + 1) - 1`, the node
spans at most `⌈n / 2 ^ d⌉` positions, and (except at the root) `2 ^ d < 2 n`. -/
def NodeInv (n i s e d : Nat) : Prop :=
  i + 2 ≤ 2 ^ (d + 1) ∧ (e - s) * 2 ^ d < n ∧ (2 ^ d = 1 ∨ 2 ^ d < 2 * n)

/-- Access mirror of `build`: every index at which `build fuel arr i s e`
reads or writes one of the three vectors (the node itself; for an internal
node also its two children, read when combining, and the nodes of both
recursive calls). -/
def nodesAcc (fuel i s e : Nat) : List Nat :=
  match fuel with
  | 0 => []
  | fuel + 1 =>
    if s = e then [i]
    else
      let mid := (s + e) / 2
      i :: get_left_child i :: get_right_child i ::
        (nodesAcc fuel (get_left_child i) s mid ++ nodesAcc fuel (get_right_child i) (mid + 1) e)

/-- Access mirror of `range_update_recursive` and
`range_max_query_lazy_recursive`: both traversals branch on the stored range
of the current node exactly alike, and at each visited node they touch the
node itself and (conservatively, for an internal node) its two children
(`handle_pending_update` / `propagate_lazy_update` write the children's lazy
slots, and the partial-overlap recombination reads the children's values).
The recursive calls run on mutated states, but every mutation preserves
`ranges`, so reading the ranges of the incoming state gives the same
traversal. -/
def travAcc (fuel : Nat) (st : MaxSegmentTree) (i qs qe : Nat) : List Nat :=
  match fuel with
  | 0 => []
  | fuel + 1 =>
    let ns := (st.ranges i).1
    let ne := (st.ranges i).2
    let here := i :: (if ns < ne then [get_left_child i, get_right_child i] else [])
    if qs ≤ ns ∧ ne ≤ qe then here
    else if qe < ns ∨ ne < qs then here
    else
      let mid := (ns + ne) / 2
      here ++ travAcc fuel st (get_left_child i) qs (min mid qe) ++
        travAcc fuel st (get_right_child i) (max (mid + 1) qs) qe

/-- Access mirror of `check_total_overlap`: the node itself plus
(conservatively, even when pruned) the nodes of both recursive calls. -/
def ctoAcc (fuel i s e : Nat) : List Nat :=
  match fuel with
  | 0 => []
  | fuel + 1 =>
    if s = e then [i]
    else
      let mid := (s + e) / 2
      i :: (ctoAcc fuel (get_left_child i) s mid ++ ctoAcc fuel (get_right_child i) (mid + 1) e)

/-- Access mirror of `is_there_recursive`: the node itself, the
`check_total_overlap` accesses on total overlap, and the nodes of both
recursive calls on partial overlap. -/
def isThereAcc (fuel : Nat) (st : MaxSegmentTree) (i qs qe : Nat) : List Nat :=
  match fuel with
  | 0 => []
  | fuel + 1 =>
    let ns := (st.ranges i).1
    let ne := (st.ranges i).2
    if qs ≤ ns ∧ ne ≤ qe then i :: ctoAcc (fuel + 1) i ns ne
    else if qe < ns ∨ ne < qs then [i]
    else
      let mid := (ne + ns) / 2
      i :: (isThereAcc fuel st (get_left_child i) qs (min mid qe) ++
        isThereAcc fuel st (get_right_child i) (max (mid + 1) qs) qe)

end MaxSegmentTree

/-! ## Basic lemmas -/

namespace MaxSegmentTree

theorem Descendant.le {i k : Nat} (h : Descendant i k) : i ≤ k := by
  induction h with
  | refl => exact Nat.le_refl _
  | left j _ ih => omega
  | right j _ ih => omega

theorem Descendant.trans {i j k : Nat} (hij : Descendant i j) (hjk : Descendant j k) :
    Descendant i k := by
  induction hij with
  | refl => exact hjk
  | left a _ ih => exact .left a (ih hjk)
  | right a _ ih => exact .right a (ih hjk)

theorem Descendant.child_left (i : Nat) : Descendant i (2 * i + 1) :=
  .left i (.refl _)

theorem Descendant.child_right (i : Nat) : Descendant i (2 * i + 2) :=
  .right i (.refl _)

theorem Descendant.parent_step {k : Nat} (h : 1 ≤ k) : Descendant ((k - 1) / 2) k := by
  rcases Nat.even_or_odd k with ⟨m, hm⟩ | ⟨m, hm⟩
  · have h1 : (k - 1) / 2 = m - 1 := by omega
    have h2 : k = 2 * (m - 1) + 2 := by omega
    rw [h1, h2]
    exact Descendant.child_right _
  · have h1 : (k - 1) / 2 = m := by omega
    have h2 : k = 2 * m + 1 := by omega
    rw [h1, h2]
    exact Descendant.child_left _

theorem Descendant.iff_parent {i k : Nat} :
    Descendant i k ↔ (i = k ∨ (i < k ∧ Descendant i ((k - 1) / 2))) := by
  constructor
  · intro h
    induction h with
    | refl => exact Or.inl rfl
    | left j h ih =>
      rcases ih with h1 | ⟨h1, h2⟩
      · subst h1
        right
        refine ⟨by omega, ?_⟩
        have e : (2 * j + 1 - 1) / 2 = j := by omega
        rw [e]
        exact Descendant.refl j
      · exact Or.inr ⟨by omega, .left j h2⟩
    | right j h ih =>
      rcases ih with h1 | ⟨h1, h2⟩
      · subst h1
        right
        refine ⟨by omega, ?_⟩
        have e : (2 * j + 2 - 1) / 2 = j := by omega
        rw [e]
        exact Descendant.refl j
      · exact Or.inr ⟨by omega, .right j h2⟩
  · rintro (h | ⟨h1, h2⟩)
    · subst h; exact .refl _
    · exact h2.trans (Descendant.parent_step (by omega))

theorem descendant_sibling_disjoint :
    ∀ k i : Nat, Descendant (2 * i + 1) k → Descendant (2 * i + 2) k → False := by
  intro k
  induction k using Nat.strong_induction_on with
  | _ k ih =>
    intro i h1 h2
    rcases Descendant.iff_parent.mp h1 with e1 | ⟨l1, p1⟩
    · have := h2.le; omega
    · rcases Descendant.iff_parent.mp h2 with e2 | ⟨l2, p2⟩
      · subst e2
        have : (2 * i + 2 - 1) / 2 = i := by omega
        rw [this] at p1
        have := p1.le; omega
      · exact ih ((k - 1) / 2) (by omega) i p1 p2

theorem not_descendant_left_self (i : Nat) : ¬ Descendant (2 * i + 1) i :=
  fun h => by have := h.le; omega

theorem not_descendant_right_self (i : Nat) : ¬ Descendant (2 * i + 2) i :=
  fun h => by have := h.le; omega

theorem not_descendant_left {i k : Nat} (h : ¬ Descendant i k) :
    ¬ Descendant (2 * i + 1) k :=
  fun hc => h ((Descendant.child_left i).trans hc)

theorem not_descendant_right {i k : Nat} (h : ¬ Descendant i k) :
    ¬ Descendant (2 * i + 2) k :=
  fun hc => h ((Descendant.child_right i).trans hc)

theorem descendant_ne_child_left {i k : Nat} (h : ¬ Descendant i k) :
    2 * i + 1 ≠ k ∧ 2 * i + 2 ≠ k ∧ i ≠ k :=
  ⟨fun e => h (e ▸ Descendant.child_left i),
   fun e => h (e ▸ Descendant.child_right i),
   fun e => h (e ▸ Descendant.refl i)⟩

theorem mid_ge {s e : Nat} (h : s ≤ e) : s ≤ (s + e) / 2 := by omega

theorem mid_lt {s e : Nat} (h : s < e) : (s + e) / 2 < e := by omega

theorem clampOf_mergeO (c d : Option Nat) (x : Nat) :
    clampOf (mergeO c d) x = clampOf c (clampOf d x) := by
  cases c <;> cases d <;> simp [clampOf, mergeO, Nat.min_assoc]

theorem mergeO_none_left (d : Option Nat) : mergeO none d = d := rfl

theorem mergeO_none_right (c : Option Nat) : mergeO c none = c := by
  cases c <;> rfl

theorem mergeO_comm (c d : Option Nat) : mergeO c d = mergeO d c := by
  cases c <;> cases d <;> simp [mergeO, Nat.min_comm]

theorem mergeO_assoc (c d e : Option Nat) :
    mergeO (mergeO c d) e = mergeO c (mergeO d e) := by
  cases c <;> cases d <;> cases e <;> simp [mergeO, Nat.min_assoc]

theorem clampOf_some (u x : Nat) : clampOf (some u) x = min u x := rfl

theorem clampOf_le_const (u x : Nat) : clampOf (some u) x ≤ u := Nat.min_le_left _ _

theorem listMax_nil : listMax [] = 0 := rfl

theorem listMax_cons (a : Nat) (l : List Nat) : listMax (a :: l) = max a (listMax l) := rfl

theorem listMax_append (l1 l2 : List Nat) :
    listMax (l1 ++ l2) = max (listMax l1) (listMax l2) := by
  induction l1 with
  | nil => simp [listMax]
  | cons a l ih =>
    simp only [List.cons_append, listMax_cons, ih]
    omega

theorem listMax_mem {l : List Nat} (h : l ≠ []) : listMax l ∈ l := by
  induction l with
  | nil => exact absurd rfl h
  | cons a l ih =>
    rcases l with _ | ⟨b, l⟩
    · simp [listMax]
    · rw [listMax_cons]
      rcases Nat.le_total a (listMax (b :: l)) with hle | hle

      · rw [Nat.max_eq_right hle]
        exact List.mem_cons_of_mem _ (ih (by simp))
      · rw [Nat.max_eq_left hle]
        exact List.mem_cons_self _ _

theorem le_listMax_of_mem {x : Nat} {l : List Nat} (h : x ∈ l) : x ≤ listMax l := by
  induction l with
  | nil => cases h
  | cons a l ih =>
    rw [listMax_cons]
    rcases List.mem_cons.mp h with h | h
    · subst h; exact Nat.le_max_left _ _
    · exact Nat.le_trans (ih h) (Nat.le_max_right _ _)

theorem winIdx_single (a : Nat) : winIdx a a = [a] := by
  simp [winIdx, List.range']

theorem winIdx_empty (a b : Nat) (h : b < a) : winIdx a b = [] := by
  simp [winIdx]
  omega

theorem mem_winIdx {x a b : Nat} : x ∈ winIdx a b ↔ a ≤ x ∧ x ≤ b := by
  simp only [winIdx, List.mem_range'_1]
  omega

theorem winIdx_ne_nil {a b : Nat} (h : a ≤ b) : winIdx a b ≠ [] := by
  intro hc
  have : a ∈ winIdx a b := mem_winIdx.mpr ⟨Nat.le_refl _, h⟩
  rw [hc] at this
  cases this

theorem winIdx_split (a m b : Nat) (h1 : a ≤ m + 1) (h2 : m ≤ b) :
    winIdx a b = winIdx a m ++ winIdx (m + 1) b := by
  have h3 := List.range'_append_1 a (m + 1 - a) (b - m)
  have e1 : a + (m + 1 - a) = m + 1 := by omega
  rw [e1] at h3
  simp only [winIdx]
  have e2 : b + 1 - (m + 1) = b - m := by omega
  have e3 : b + 1 - a = b - m + (m + 1 - a) := by omega
  rw [e2, e3, ← h3]

end MaxSegmentTree

/-! ## Preservation and frame lemmas -/

namespace MaxSegmentTree

theorem setTree_size (st : MaxSegmentTree) (i v : Nat) : (setTree st i v).size = st.size := rfl

theorem setTree_ranges (st : MaxSegmentTree) (i v : Nat) :
    (setTree st i v).ranges = st.ranges := rfl

theorem setTree_lazy (st : MaxSegmentTree) (i v : Nat) :
    (setTree st i v).lazy_updates = st.lazy_updates := rfl

theorem setTree_tree (st : MaxSegmentTree) (i v k : Nat) :
    (setTree st i v).tree k = if k = i then v else st.tree k := by
  simp [setTree, Function.update_apply]

theorem setLazy_size (st : MaxSegmentTree) (i : Nat) (v : Option Nat) :
    (setLazy st i v).size = st.size := rfl

theorem setLazy_ranges (st : MaxSegmentTree) (i : Nat) (v : Option Nat) :
    (setLazy st i v).ranges = st.ranges := rfl

theorem setLazy_tree (st : MaxSegmentTree) (i : Nat) (v : Option Nat) :
    (setLazy st i v).tree = st.tree := rfl

theorem setLazy_lazy (st : MaxSegmentTree) (i : Nat) (v : Option Nat) (k : Nat) :
    (setLazy st i v).lazy_updates k = if k = i then v else st.lazy_updates k := by
  simp [setLazy, Function.update_apply]

theorem poc_size (st : MaxSegmentTree) (node v : Nat) :
    (propagate_one_child st node v).size = st.size := rfl

theorem poc_ranges (st : MaxSegmentTree) (node v : Nat) :
    (propagate_one_child st node v).ranges = st.ranges := rfl

theorem poc_tree (st : MaxSegmentTree) (node v : Nat) :
    (propagate_one_child st node v).tree = st.tree := rfl

theorem poc_lazy_ne {k node : Nat} (st : MaxSegmentTree) (v : Nat) (h : k ≠ node) :
    (propagate_one_child st node v).lazy_updates k = st.lazy_updates k := by
  simp [propagate_one_child, setLazy_lazy, h]

theorem poc_lazy_self (st : MaxSegmentTree) (node v : Nat) :
    (propagate_one_child st node v).lazy_updates node = mergeO (some v) (st.lazy_updates node) := by
  cases h : st.lazy_updates node <;>
    simp [propagate_one_child, setLazy_lazy, h, mergeO, Nat.min_comm]

theorem plu_size (st : MaxSegmentTree) (c v ns ne : Nat) :
    (propagate_lazy_update st c v ns ne).size = st.size := by
  unfold propagate_lazy_update
  split <;> rfl

theorem plu_ranges (st : MaxSegmentTree) (c v ns ne : Nat) :
    (propagate_lazy_update st c v ns ne).ranges = st.ranges := by
  unfold propagate_lazy_update
  split <;> rfl

theorem plu_tree (st : MaxSegmentTree) (c v ns ne : Nat) :
    (propagate_lazy_update st c v ns ne).tree = st.tree := by
  unfold propagate_lazy_update
  split <;> rfl

theorem plu_lazy_ne {k c : Nat} (st : MaxSegmentTree) (v ns ne : Nat)
    (h1 : k ≠ 2 * c + 1) (h2 : k ≠ 2 * c + 2) :
    (propagate_lazy_update st c v ns ne).lazy_updates k = st.lazy_updates k := by
  unfold propagate_lazy_update
  split
  · rw [poc_lazy_ne _ _ (by simpa [get_right_child] using h2),
      poc_lazy_ne _ _ (by simpa [get_left_child] using h1)]
  · rfl

theorem plu_lazy_left {ns ne : Nat} (st : MaxSegmentTree) (c v : Nat) (h : ns < ne) :
    (propagate_lazy_update st c v ns ne).lazy_updates (2 * c + 1) =
      mergeO (some v) (st.lazy_updates (2 * c + 1)) := by
  unfold propagate_lazy_update
  rw [if_pos h]
  rw [poc_lazy_ne _ _ (show 2 * c + 1 ≠ get_right_child c by simp only [get_right_child]; omega)]
  have := poc_lazy_self st (get_left_child c) v
  simp only [get_left_child] at this
  exact this

theorem plu_lazy_right {ns ne : Nat} (st : MaxSegmentTree) (c v : Nat) (h : ns < ne) :
    (propagate_lazy_update st c v ns ne).lazy_updates (2 * c + 2) =
      mergeO (some v) (st.lazy_updates (2 * c + 2)) := by
  unfold propagate_lazy_update
  rw [if_pos h]
  simp only [get_right_child, get_left_child]
  rw [poc_lazy_self, poc_lazy_ne _ _ (show 2 * c + 2 ≠ 2 * c + 1 by omega)]

theorem plu_leaf (st : MaxSegmentTree) (c v ns ne : Nat) (h : ¬ ns < ne) :
    propagate_lazy_update st c v ns ne = st := by
  unfold propagate_lazy_update
  rw [if_neg h]

theorem hp_size (st : MaxSegmentTree) (c v ns ne : Nat) :
    (handle_pending_update st c v ns ne).2.size = st.size := by
  cases h : st.lazy_updates c <;> simp [handle_pending_update, h, plu_size, setTree_size, setLazy_size]

theorem hp_ranges (st : MaxSegmentTree) (c v ns ne : Nat) :
    (handle_pending_update st c v ns ne).2.ranges = st.ranges := by
  cases h : st.lazy_updates c <;> simp [handle_pending_update, h, plu_ranges, setTree_ranges, setLazy_ranges]

theorem hp_fst (st : MaxSegmentTree) (c v ns ne : Nat) :
    (handle_pending_update st c v ns ne).1 = clampOf (st.lazy_updates c) v := by
  cases h : st.lazy_updates c <;> simp [handle_pending_update, h, clampOf, Nat.min_comm]

theorem hp_lazy_self (st : MaxSegmentTree) (c v ns ne : Nat) :
    (handle_pending_update st c v ns ne).2.lazy_updates c = none := by
  cases h : st.lazy_updates c with
  | none => simp [handle_pending_update, h]
  | some u =>
    simp only [handle_pending_update, h]
    rw [plu_lazy_ne _ _ _ _ (by omega) (by omega)]
    simp [setTree_lazy, setLazy_lazy]

theorem hp_tree_self (st : MaxSegmentTree) (c v ns ne : Nat) :
    (handle_pending_update st c v ns ne).2.tree c = eff st c := by
  cases h : st.lazy_updates c with
  | none => simp [handle_pending_update, h, eff, clampOf]
  | some u =>
    simp only [handle_pending_update, h]
    rw [show ((propagate_lazy_update _ c u ns ne).tree = _) from plu_tree _ _ _ _ _]
    simp [setTree_tree, setLazy_tree, eff, h, clampOf, Nat.min_comm]

theorem hp_tree_ne {k c : Nat} (st : MaxSegmentTree) (v ns ne : Nat) (h : k ≠ c) :
    (handle_pending_update st c v ns ne).2.tree k = st.tree k := by
  cases hu : st.lazy_updates c with
  | none => simp [handle_pending_update, hu]
  | some u =>
    simp only [handle_pending_update, hu]
    rw [show ((propagate_lazy_update _ c u ns ne).tree = _) from plu_tree _ _ _ _ _]
    simp [setTree_tree, setLazy_tree, h]

theorem hp_lazy_ne {k c : Nat} (st : MaxSegmentTree) (v ns ne : Nat)
    (h : k ≠ c) (h1 : k ≠ 2 * c + 1) (h2 : k ≠ 2 * c + 2) :
    (handle_pending_update st c v ns ne).2.lazy_updates k = st.lazy_updates k := by
  cases hu : st.lazy_updates c with
  | none => simp [handle_pending_update, hu]
  | some u =>
    simp only [handle_pending_update, hu]
    rw [plu_lazy_ne _ _ _ _ h1 h2]
    simp [setTree_lazy, setLazy_lazy, h]

theorem hp_lazy_left {ns ne : Nat} {u : Nat} (st : MaxSegmentTree) (c v : Nat)
    (hu : st.lazy_updates c = some u) (h : ns < ne) :
    (handle_pending_update st c v ns ne).2.lazy_updates (2 * c + 1) =
      mergeO (some u) (st.lazy_updates (2 * c + 1)) := by
  simp only [handle_pending_update, hu]
  rw [plu_lazy_left _ _ _ h, setTree_lazy, setLazy_lazy, if_neg (by omega)]

theorem hp_lazy_right {ns ne : Nat} {u : Nat} (st : MaxSegmentTree) (c v : Nat)
    (hu : st.lazy_updates c = some u) (h : ns < ne) :
    (handle_pending_update st c v ns ne).2.lazy_updates (2 * c + 2) =
      mergeO (some u) (st.lazy_updates (2 * c + 2)) := by
  simp only [handle_pending_update, hu]
  rw [plu_lazy_right _ _ _ h, setTree_lazy, setLazy_lazy, if_neg (by omega)]

theorem hp_frame {k c : Nat} (st : MaxSegmentTree) (v ns ne : Nat) (h : ¬ Descendant c k) :
    (handle_pending_update st c v ns ne).2.tree k = st.tree k ∧
    (handle_pending_update st c v ns ne).2.lazy_updates k = st.lazy_updates k := by
  obtain ⟨h1, h2, h3⟩ := descendant_ne_child_left h
  exact ⟨hp_tree_ne st v ns ne (Ne.symm h3),
    hp_lazy_ne st v ns ne (Ne.symm h3) (Ne.symm h1) (Ne.symm h2)⟩

end MaxSegmentTree

/-! ## Ranges/size preservation and write frames of the recursive operations -/

namespace MaxSegmentTree

theorem rur_ranges : ∀ (fuel : Nat) (st : MaxSegmentTree) (c qs qe v : Nat),
    (range_update_recursive fuel st c qs qe v).ranges = st.ranges := by
  intro fuel
  induction fuel with
  | zero => intro st c qs qe v; rfl
  | succ f ih =>
    intro st c qs qe v
    simp only [range_update_recursive]
    split
    · rw [plu_ranges, setTree_ranges, hp_ranges]
    · split
      · rw [hp_ranges]
      · rw [setTree_ranges, ih, ih, hp_ranges]

theorem rur_size : ∀ (fuel : Nat) (st : MaxSegmentTree) (c qs qe v : Nat),
    (range_update_recursive fuel st c qs qe v).size = st.size := by
  intro fuel
  induction fuel with
  | zero => intro st c qs qe v; rfl
  | succ f ih =>
    intro st c qs qe v
    simp only [range_update_recursive]
    split
    · rw [plu_size, setTree_size, hp_size]
    · split
      · rw [hp_size]
      · rw [setTree_size, ih, ih, hp_size]

theorem rmq_ranges : ∀ (fuel : Nat) (st : MaxSegmentTree) (c qs qe : Nat),
    (range_max_query_lazy_recursive fuel st c qs qe).2.ranges = st.ranges := by
  intro fuel
  induction fuel with
  | zero => intro st c qs qe; rfl
  | succ f ih =>
    intro st c qs qe
    simp only [range_max_query_lazy_recursive]
    split
    · rw [hp_ranges]
    · split
      · rw [hp_ranges]
      · rw [ih, ih, hp_ranges]

theorem rmq_size : ∀ (fuel : Nat) (st : MaxSegmentTree) (c qs qe : Nat),
    (range_max_query_lazy_recursive fuel st c qs qe).2.size = st.size := by
  intro fuel
  induction fuel with
  | zero => intro st c qs qe; rfl
  | succ f ih =>
    intro st c qs qe
    simp only [range_max_query_lazy_recursive]
    split
    · rw [hp_size]
    · split
      · rw [hp_size]
      · rw [ih, ih, hp_size]

theorem setRange_size (st : MaxSegmentTree) (i : Nat) (r : Nat × Nat) :
    (setRange st i r).size = st.size := rfl

theorem setRange_tree (st : MaxSegmentTree) (i : Nat) (r : Nat × Nat) :
    (setRange st i r).tree = st.tree := rfl

theorem setRange_lazy (st : MaxSegmentTree) (i : Nat) (r : Nat × Nat) :
    (setRange st i r).lazy_updates = st.lazy_updates := rfl

theorem setRange_ranges (st : MaxSegmentTree) (i : Nat) (r : Nat × Nat) (k : Nat) :
    (setRange st i r).ranges k = if k = i then r else st.ranges k := by
  simp [setRange, Function.update_apply]

theorem build_size : ∀ (fuel : Nat) (arr : List Nat) (i s e : Nat) (st : MaxSegmentTree),
    (build fuel arr i s e st).size = st.size := by
  intro fuel
  induction fuel with
  | zero => intro arr i s e st; rfl
  | succ f ih =>
    intro arr i s e st
    simp only [build]
    split
    · rw [setTree_size, setRange_size]
    · rw [setTree_size, ih, ih, setRange_size]

theorem build_lazy : ∀ (fuel : Nat) (arr : List Nat) (i s e : Nat) (st : MaxSegmentTree),
    (build fuel arr i s e st).lazy_updates = st.lazy_updates := by
  intro fuel
  induction fuel with
  | zero => intro arr i s e st; rfl
  | succ f ih =>
    intro arr i s e st
    simp only [build]
    split
    · rw [setTree_lazy, setRange_lazy]
    · rw [setTree_lazy, ih, ih, setRange_lazy]

theorem rur_frame : ∀ (fuel : Nat) (st : MaxSegmentTree) (c qs qe v k : Nat),
    ¬ Descendant c k →
    (range_update_recursive fuel st c qs qe v).tree k = st.tree k ∧
    (range_update_recursive fuel st c qs qe v).lazy_updates k = st.lazy_updates k := by
  intro fuel
  induction fuel with
  | zero => intro st c qs qe v k h; exact ⟨rfl, rfl⟩
  | succ f ih =>
    intro st c qs qe v k h
    obtain ⟨hne1, hne2, hne3⟩ := descendant_ne_child_left h
    simp only [range_update_recursive, get_left_child, get_right_child]
    split
    · constructor
      · rw [show (propagate_lazy_update _ c _ _ _).tree = _ from plu_tree _ _ _ _ _,
          setTree_tree, if_neg (Ne.symm hne3), hp_tree_ne _ _ _ _ (Ne.symm hne3)]
      · rw [plu_lazy_ne _ _ _ _ (Ne.symm hne1) (Ne.symm hne2), setTree_lazy,
          hp_lazy_ne _ _ _ _ (Ne.symm hne3) (Ne.symm hne1) (Ne.symm hne2)]
    · split
      · exact hp_frame st u32MAX _ _ h
      · have hl := not_descendant_left h
        have hr := not_descendant_right h
        constructor
        · rw [setTree_tree, if_neg (Ne.symm hne3), (ih _ _ _ _ _ _ hr).1,
            (ih _ _ _ _ _ _ hl).1, (hp_frame st v _ _ h).1]
        · rw [setTree_lazy, (ih _ _ _ _ _ _ hr).2, (ih _ _ _ _ _ _ hl).2,
            (hp_frame st v _ _ h).2]

theorem rmq_frame : ∀ (fuel : Nat) (st : MaxSegmentTree) (c qs qe k : Nat),
    ¬ Descendant c k →
    (range_max_query_lazy_recursive fuel st c qs qe).2.tree k = st.tree k ∧
    (range_max_query_lazy_recursive fuel st c qs qe).2.lazy_updates k = st.lazy_updates k := by
  intro fuel
  induction fuel with
  | zero => intro st c qs qe k h; exact ⟨rfl, rfl⟩
  | succ f ih =>
    intro st c qs qe k h
    have hl := not_descendant_left h
    have hr := not_descendant_right h
    simp only [range_max_query_lazy_recursive, get_left_child, get_right_child]
    split
    · exact hp_frame st u32MAX _ _ h
    · split
      · exact hp_frame st u32MAX _ _ h
      · constructor
        · rw [(ih _ _ _ _ _ hr).1, (ih _ _ _ _ _ hl).1, (hp_frame st u32MAX _ _ h).1]
        · rw [(ih _ _ _ _ _ hr).2, (ih _ _ _ _ _ hl).2, (hp_frame st u32MAX _ _ h).2]

theorem build_frame : ∀ (fuel : Nat) (arr : List Nat) (i s e : Nat) (st : MaxSegmentTree)
    (k : Nat), ¬ Descendant i k →
    (build fuel arr i s e st).tree k = st.tree k ∧
    (build fuel arr i s e st).ranges k = st.ranges k := by
  intro fuel
  induction fuel with
  | zero => intro arr i s e st k h; exact ⟨rfl, rfl⟩
  | succ f ih =>
    intro arr i s e st k h
    obtain ⟨hne1, hne2, hne3⟩ := descendant_ne_child_left h
    have hl := not_descendant_left h
    have hr := not_descendant_right h
    simp only [build, get_left_child, get_right_child]
    split
    · constructor
      · rw [setTree_tree, if_neg (Ne.symm hne3), setRange_tree]
      · rw [setTree_ranges, setRange_ranges, if_neg (Ne.symm hne3)]
    · constructor
      · rw [setTree_tree, if_neg (Ne.symm hne3), (ih _ _ _ _ _ _ hr).1,
          (ih _ _ _ _ _ _ hl).1, setRange_tree]
      · rw [setTree_ranges, (ih _ _ _ _ _ _ hr).2, (ih _ _ _ _ _ _ hl).2,
          setRange_ranges, if_neg (Ne.symm hne3)]

end MaxSegmentTree

/-! ## Congruence lemmas: operations read only their own subtree -/

namespace MaxSegmentTree

theorem EqOn.self {st st' : MaxSegmentTree} {i : Nat} (h : EqOn st st' i) :
    st.tree i = st'.tree i ∧ st.lazy_updates i = st'.lazy_updates i :=
  h i (.refl i)

theorem EqOn.childL {st st' : MaxSegmentTree} {i : Nat} (h : EqOn st st' i) :
    EqOn st st' (2 * i + 1) :=
  fun k hk => h k ((Descendant.child_left i).trans hk)

theorem EqOn.childR {st st' : MaxSegmentTree} {i : Nat} (h : EqOn st st' i) :
    EqOn st st' (2 * i + 2) :=
  fun k hk => h k ((Descendant.child_right i).trans hk)

theorem eff_congr {st st' : MaxSegmentTree} {i k : Nat} (h : EqOn st st' i)
    (hk : Descendant i k) : eff st k = eff st' k := by
  obtain ⟨h1, h2⟩ := h k hk
  rw [eff, eff, h1, h2]

theorem EqOn_setTree {st st' : MaxSegmentTree} {i : Nat} (h : EqOn st st' i) (c x : Nat) :
    EqOn (setTree st c x) (setTree st' c x) i := by
  intro k hk
  obtain ⟨h1, h2⟩ := h k hk
  rw [setTree_tree, setTree_tree, setTree_lazy, setTree_lazy]
  exact ⟨by split <;> simp [h1], h2⟩

theorem EqOn_poc {st st' : MaxSegmentTree} {i node : Nat} (h : EqOn st st' i)
    (hd : Descendant i node) (v : Nat) :
    EqOn (propagate_one_child st node v) (propagate_one_child st' node v) i := by
  intro k hk
  obtain ⟨h1, h2⟩ := h k hk
  refine ⟨by rw [show (propagate_one_child st node v).tree = _ from poc_tree _ _ _,
    show (propagate_one_child st' node v).tree = _ from poc_tree _ _ _]; exact h1, ?_⟩
  by_cases hkn : k = node
  · subst hkn
    rw [poc_lazy_self, poc_lazy_self, h2]
  · rw [poc_lazy_ne _ _ hkn, poc_lazy_ne _ _ hkn]
    exact h2

theorem EqOn_plu {st st' : MaxSegmentTree} {i c : Nat} (h : EqOn st st' i)
    (hd : Descendant i c) (v ns ne : Nat) :
    EqOn (propagate_lazy_update st c v ns ne) (propagate_lazy_update st' c v ns ne) i := by
  unfold propagate_lazy_update
  split
  · exact EqOn_poc (EqOn_poc h (hd.trans (Descendant.child_left c)) v)
      (by simpa [get_right_child] using hd.trans (Descendant.child_right c)) v
  · exact h

theorem hp_congr {st st' : MaxSegmentTree} {c : Nat} (h : EqOn st st' c) (v ns ne : Nat) :
    (handle_pending_update st c v ns ne).1 = (handle_pending_update st' c v ns ne).1 ∧
    EqOn (handle_pending_update st c v ns ne).2 (handle_pending_update st' c v ns ne).2 c := by
  obtain ⟨ht, hl⟩ := h.self
  constructor
  · rw [hp_fst, hp_fst, hl]
  · cases hu : st.lazy_updates c with
    | none =>
      have hu' : st'.lazy_updates c = none := by rw [← hl, hu]
      simp only [handle_pending_update, hu, hu']
      exact h
    | some u =>
      have hu' : st'.lazy_updates c = some u := by rw [← hl, hu]
      simp only [handle_pending_update, hu, hu']
      have hts : (setLazy st c none).tree c = (setLazy st' c none).tree c := by
        rw [setLazy_tree, setLazy_tree, ht]
      rw [hts]
      refine EqOn_plu (EqOn_setTree (fun k hk => ?_) c _) (Descendant.refl c) u ns ne
      obtain ⟨h1, h2⟩ := h k hk
      rw [setLazy_tree, setLazy_tree, setLazy_lazy, setLazy_lazy]
      refine ⟨h1, ?_⟩
      split <;> simp [h2]

theorem EqOn_glue {A A' B B' : MaxSegmentTree} {c j : Nat}
    (hAA : EqOn A A' c)
    (hBB : EqOn B B' j)
    (hfr : ∀ k, ¬ Descendant j k → B.tree k = A.tree k ∧ B.lazy_updates k = A.lazy_updates k)
    (hfr' : ∀ k, ¬ Descendant j k →
      B'.tree k = A'.tree k ∧ B'.lazy_updates k = A'.lazy_updates k) :
    EqOn B B' c := by
  intro k hk
  by_cases hdk : Descendant j k
  · exact hBB k hdk
  · obtain ⟨t1, l1⟩ := hfr k hdk
    obtain ⟨t2, l2⟩ := hfr' k hdk
    obtain ⟨t0, l0⟩ := hAA k hk
    exact ⟨by rw [t1, t2, t0], by rw [l1, l2, l0]⟩

theorem rur_congr : ∀ (fuel : Nat) (st st' : MaxSegmentTree) (c qs qe v : Nat),
    st.ranges = st'.ranges → EqOn st st' c →
    EqOn (range_update_recursive fuel st c qs qe v)
      (range_update_recursive fuel st' c qs qe v) c := by
  intro fuel
  induction fuel with
  | zero => intro st st' c qs qe v hr h; exact h
  | succ f ih =>
    intro st st' c qs qe v hr h
    have hrc : st'.ranges c = st.ranges c := by rw [hr]
    simp only [range_update_recursive, hrc]
    split
    · obtain ⟨hfst, h2⟩ := hp_congr h v (st.ranges c).1 (st.ranges c).2
      rw [hfst, (h2.self).1]
      exact EqOn_plu (EqOn_setTree h2 c _) (Descendant.refl c) _ _ _
    · split
      · exact (hp_congr h u32MAX _ _).2
      · obtain ⟨hfst, h2⟩ := hp_congr h v (st.ranges c).1 (st.ranges c).2
        rw [hfst]
        have hpr : (handle_pending_update st c v (st.ranges c).1 (st.ranges c).2).2.ranges
            = (handle_pending_update st' c v (st.ranges c).1 (st.ranges c).2).2.ranges := by
          rw [hp_ranges, hp_ranges, hr]
        set p2 := (handle_pending_update st c v (st.ranges c).1 (st.ranges c).2).2 with hp2def
        set q2 := (handle_pending_update st' c v (st.ranges c).1 (st.ranges c).2).2 with hq2def
        set w := (handle_pending_update st' c v (st.ranges c).1 (st.ranges c).2).1 with hwdef
        set b1 := min (((st.ranges c).1 + (st.ranges c).2) / 2) qe with hb1def
        set a2 := max ((((st.ranges c).1 + (st.ranges c).2) / 2) + 1) qs with ha2def
        have hL := ih p2 q2 (get_left_child c) qs b1 w hpr
          (by simpa only [get_left_child] using h2.childL)
        have hC1 := EqOn_glue h2 hL
          (fun k hk => rur_frame f p2 (get_left_child c) qs b1 w k hk)
          (fun k hk => rur_frame f q2 (get_left_child c) qs b1 w k hk)
        have hR := ih (range_update_recursive f p2 (get_left_child c) qs b1 w)
          (range_update_recursive f q2 (get_left_child c) qs b1 w)
          (get_right_child c) a2 qe w
          (by rw [rur_ranges, rur_ranges, hpr])
          (by simpa only [get_right_child] using hC1.childR)
        have hC2 := EqOn_glue hC1 hR
          (fun k hk => rur_frame f _ (get_right_child c) a2 qe w k hk)
          (fun k hk => rur_frame f _ (get_right_child c) a2 qe w k hk)
        have hvl := (hC2 (get_left_child c)
          (by simpa only [get_left_child] using Descendant.child_left c)).1
        have hvr := (hC2 (get_right_child c)
          (by simpa only [get_right_child] using Descendant.child_right c)).1
        rw [hvl, hvr]
        exact EqOn_setTree hC2 c _

end MaxSegmentTree

/-! ## Idempotence / absorption of `range_update_recursive` -/

namespace MaxSegmentTree

theorem clampOf_le_self (c : Option Nat) (v : Nat) : clampOf c v ≤ v := by
  cases c with
  | none => exact Nat.le_refl v
  | some u => exact Nat.min_le_right u v

theorem setTree_self (st : MaxSegmentTree) (i : Nat) : setTree st i (st.tree i) = st := by
  simp [setTree, Function.update_eq_self]

theorem setLazy_self (st : MaxSegmentTree) (i : Nat) :
    setLazy st i (st.lazy_updates i) = st := by
  simp [setLazy, Function.update_eq_self]

theorem hp_none {st : MaxSegmentTree} {c : Nat} (h : st.lazy_updates c = none)
    (v ns ne : Nat) : handle_pending_update st c v ns ne = (v, st) := by
  simp [handle_pending_update, h]

theorem mergeO_some_eq (a : Nat) (x : Option Nat) :
    mergeO (some a) x = some (clampOf x a) := by
  cases x <;> simp [mergeO, clampOf, Nat.min_comm]

theorem poc_absorb {st : MaxSegmentTree} {node w v : Nat}
    (h : st.lazy_updates node = some w) (hw : w ≤ v) :
    propagate_one_child st node v = st := by
  unfold propagate_one_child
  simp only [h]
  rw [Nat.min_eq_left hw, ← h]
  exact setLazy_self st node

theorem plu_absorb {st : MaxSegmentTree} {c v ns ne w1 w2 : Nat}
    (hlt : ns < ne)
    (h1 : st.lazy_updates (2 * c + 1) = some w1) (hw1 : w1 ≤ v)
    (h2 : st.lazy_updates (2 * c + 2) = some w2) (hw2 : w2 ≤ v) :
    propagate_lazy_update st c v ns ne = st := by
  unfold propagate_lazy_update
  rw [if_pos hlt]
  have e1 : propagate_one_child st (get_left_child c) v = st :=
    poc_absorb (by simpa only [get_left_child] using h1) hw1
  rw [e1]
  exact poc_absorb (by simpa only [get_right_child] using h2) hw2

theorem rur_succ_total {f : Nat} {st : MaxSegmentTree} {c qs qe v ns ne : Nat}
    (hr : st.ranges c = (ns, ne)) (h : qs ≤ ns ∧ ne ≤ qe) :
    range_update_recursive (f + 1) st c qs qe v =
      propagate_lazy_update
        (setTree (handle_pending_update st c v ns ne).2 c
          (min ((handle_pending_update st c v ns ne).2.tree c)
            (handle_pending_update st c v ns ne).1))
        c (handle_pending_update st c v ns ne).1 ns ne := by
  simp only [range_update_recursive, hr, if_pos h]

theorem rur_succ_none {f : Nat} {st : MaxSegmentTree} {c qs qe v ns ne : Nat}
    (hr : st.ranges c = (ns, ne)) (h1 : ¬ (qs ≤ ns ∧ ne ≤ qe))
    (h2 : qe < ns ∨ ne < qs) :
    range_update_recursive (f + 1) st c qs qe v =
      (handle_pending_update st c u32MAX ns ne).2 := by
  simp only [range_update_recursive, hr, if_neg h1, if_pos h2]

theorem rur_succ_part {f : Nat} {st : MaxSegmentTree} {c qs qe v ns ne : Nat}
    (hr : st.ranges c = (ns, ne)) (h1 : ¬ (qs ≤ ns ∧ ne ≤ qe))
    (h2 : ¬ (qe < ns ∨ ne < qs)) :
    range_update_recursive (f + 1) st c qs qe v =
      setTree
        (range_update_recursive f
          (range_update_recursive f (handle_pending_update st c v ns ne).2
            (get_left_child c) qs (min ((ns + ne) / 2) qe)
            (handle_pending_update st c v ns ne).1)
          (get_right_child c) (max ((ns + ne) / 2 + 1) qs) qe
          (handle_pending_update st c v ns ne).1)
        c
        (max
          ((range_update_recursive f
            (range_update_recursive f (handle_pending_update st c v ns ne).2
              (get_left_child c) qs (min ((ns + ne) / 2) qe)
              (handle_pending_update st c v ns ne).1)
            (get_right_child c) (max ((ns + ne) / 2 + 1) qs) qe
            (handle_pending_update st c v ns ne).1).tree (get_left_child c))
          ((range_update_recursive f
            (range_update_recursive f (handle_pending_update st c v ns ne).2
              (get_left_child c) qs (min ((ns + ne) / 2) qe)
              (handle_pending_update st c v ns ne).1)
            (get_right_child c) (max ((ns + ne) / 2 + 1) qs) qe
            (handle_pending_update st c v ns ne).1).tree (get_right_child c))) := by
  simp only [range_update_recursive, hr, if_neg h1, if_neg h2]

theorem rur_absorb : ∀ (fuel : Nat) (st : MaxSegmentTree) (c qs qe v1 v2 : Nat), v1 ≤ v2 →
    range_update_recursive fuel (range_update_recursive fuel st c qs qe v1) c qs qe v2 =
      range_update_recursive fuel st c qs qe v1 := by
  intro fuel
  induction fuel with
  | zero => intro st c qs qe v1 v2 hv; rfl
  | succ f ih =>
    intro st c qs qe v1 v2 hv
    rcases hns : st.ranges c with ⟨ns, ne⟩
    by_cases h1 : qs ≤ ns ∧ ne ≤ qe
    · -- Total overlap
      rw [rur_succ_total hns h1]
      set p := handle_pending_update st c v1 ns ne with hpdef
      set T := propagate_lazy_update (setTree p.2 c (min (p.2.tree c) p.1)) c p.1 ns ne
        with hTdef
      have hTr : T.ranges c = (ns, ne) := by
        rw [hTdef, plu_ranges, setTree_ranges, hpdef, hp_ranges]
        exact hns
      have hTlz : T.lazy_updates c = none := by
        rw [hTdef, plu_lazy_ne _ _ _ _ (by omega) (by omega), setTree_lazy, hpdef,
          hp_lazy_self]
      rw [rur_succ_total hTr h1]
      simp only [hp_none hTlz]
      have hp1le : p.1 ≤ v1 := by
        rw [hpdef, hp_fst]
        exact clampOf_le_self _ _
      have hTt : T.tree c ≤ p.1 := by
        rw [hTdef]
        rw [show (propagate_lazy_update (setTree p.2 c (min (p.2.tree c) p.1)) c p.1
            ns ne).tree = _ from plu_tree _ _ _ _ _]
        rw [setTree_tree, if_pos rfl]
        exact Nat.min_le_right _ _
      rw [Nat.min_eq_left (le_trans hTt (le_trans hp1le hv)), setTree_self]
      by_cases hlt : ns < ne
      · have hl1 : T.lazy_updates (2 * c + 1) =
            some (clampOf (p.2.lazy_updates (2 * c + 1)) p.1) := by
          rw [hTdef, plu_lazy_left _ _ _ hlt, setTree_lazy, mergeO_some_eq]
        have hl2 : T.lazy_updates (2 * c + 2) =
            some (clampOf (p.2.lazy_updates (2 * c + 2)) p.1) := by
          rw [hTdef, plu_lazy_right _ _ _ hlt, setTree_lazy, mergeO_some_eq]
        exact plu_absorb hlt hl1
          (le_trans (clampOf_le_self _ _) (le_trans hp1le hv)) hl2
          (le_trans (clampOf_le_self _ _) (le_trans hp1le hv))
      · exact plu_leaf _ _ _ _ _ hlt
    · by_cases h2 : qe < ns ∨ ne < qs
      · -- No overlap
        rw [rur_succ_none hns h1 h2]
        set S := (handle_pending_update st c u32MAX ns ne).2 with hSdef
        have hSr : S.ranges c = (ns, ne) := by
          rw [hSdef, hp_ranges]
          exact hns
        have hSlz : S.lazy_updates c = none := by
          rw [hSdef, hp_lazy_self]
        rw [rur_succ_none hSr h1 h2, hp_none hSlz]
      · -- Partial overlap
        rw [rur_succ_part hns h1 h2]
        set p := handle_pending_update st c v1 ns ne with hpdef
        set st2 := range_update_recursive f p.2 (get_left_child c) qs
          (min ((ns + ne) / 2) qe) p.1 with hst2
        set st3 := range_update_recursive f st2 (get_right_child c)
          (max ((ns + ne) / 2 + 1) qs) qe p.1 with hst3
        set st1 := setTree st3 c
          (max (st3.tree (get_left_child c)) (st3.tree (get_right_child c))) with hst1
        have hst1r : st1.ranges = st.ranges := by
          rw [hst1, setTree_ranges, hst3, rur_ranges, hst2, rur_ranges, hpdef, hp_ranges]
        have hns1 : st1.ranges c = (ns, ne) := by
          rw [hst1r]
          exact hns
        have hlz1 : st1.lazy_updates c = none := by
          rw [hst1, setTree_lazy, hst3,
            (rur_frame f st2 (get_right_child c) _ _ _ c
              (by simpa only [get_right_child] using not_descendant_right_self c)).2,
            hst2,
            (rur_frame f p.2 (get_left_child c) _ _ _ c
              (by simpa only [get_left_child] using not_descendant_left_self c)).2,
            hpdef, hp_lazy_self]
        have hp1le : p.1 ≤ v1 := by
          rw [hpdef, hp_fst]
          exact clampOf_le_self _ _
        have hpv : p.1 ≤ v2 := le_trans hp1le hv
        have hA : range_update_recursive f st1 (get_left_child c) qs
            (min ((ns + ne) / 2) qe) v2 = st1 := by
          have hEq : EqOn st1 st2 (get_left_child c) := by
            intro k hk
            have hk' : Descendant (2 * c + 1) k := by
              simpa only [get_left_child] using hk
            have hkc : k ≠ c := by
              intro e
              subst e
              have := hk'.le
              omega
            have hnkr : ¬ Descendant (2 * c + 2) k :=
              fun hr2 => descendant_sibling_disjoint k c hk' hr2
            constructor
            · rw [hst1, setTree_tree, if_neg hkc, hst3,
                (rur_frame f st2 (get_right_child c) _ _ _ k
                  (by simpa only [get_right_child] using hnkr)).1]
            · rw [hst1, setTree_lazy, hst3,
                (rur_frame f st2 (get_right_child c) _ _ _ k
                  (by simpa only [get_right_child] using hnkr)).2]
          have hcong := rur_congr f st1 st2 (get_left_child c) qs
            (min ((ns + ne) / 2) qe) v2
            (by rw [hst1r, hst2, rur_ranges, hpdef, hp_ranges]) hEq
          have hIH : range_update_recursive f st2 (get_left_child c) qs
              (min ((ns + ne) / 2) qe) v2 = st2 := by
            rw [hst2]
            exact ih p.2 (get_left_child c) qs (min ((ns + ne) / 2) qe) p.1 v2 hpv
          apply MaxSegmentTree.ext
          · rw [rur_size]
          · funext k
            by_cases hk : Descendant (get_left_child c) k
            · rw [(hcong k hk).1, hIH]
              exact ((hEq k hk).1).symm
            · exact (rur_frame f st1 (get_left_child c) _ _ _ k hk).1
          · rw [rur_ranges]
          · funext k
            by_cases hk : Descendant (get_left_child c) k
            · rw [(hcong k hk).2, hIH]
              exact ((hEq k hk).2).symm
            · exact (rur_frame f st1 (get_left_child c) _ _ _ k hk).2
        have hB : range_update_recursive f st1 (get_right_child c)
            (max ((ns + ne) / 2 + 1) qs) qe v2 = st1 := by
          have hEq : EqOn st1 st3 (get_right_child c) := by
            intro k hk
            have hk' : Descendant (2 * c + 2) k := by
              simpa only [get_right_child] using hk
            have hkc : k ≠ c := by
              intro e
              subst e
              have := hk'.le
              omega
            exact ⟨by rw [hst1, setTree_tree, if_neg hkc], by rw [hst1, setTree_lazy]⟩
          have hcong := rur_congr f st1 st3 (get_right_child c)
            (max ((ns + ne) / 2 + 1) qs) qe v2
            (by rw [hst1r, hst3, rur_ranges, hst2, rur_ranges, hpdef, hp_ranges]) hEq
          have hIH : range_update_recursive f st3 (get_right_child c)
              (max ((ns + ne) / 2 + 1) qs) qe v2 = st3 := by
            rw [hst3]
            exact ih st2 (get_right_child c) (max ((ns + ne) / 2 + 1) qs) qe p.1 v2 hpv
          apply MaxSegmentTree.ext
          · rw [rur_size]
          · funext k
            by_cases hk : Descendant (get_right_child c) k
            · rw [(hcong k hk).1, hIH]
              exact ((hEq k hk).1).symm
            · exact (rur_frame f st1 (get_right_child c) _ _ _ k hk).1
          · rw [rur_ranges]
          · funext k
            by_cases hk : Descendant (get_right_child c) k
            · rw [(hcong k hk).2, hIH]
              exact ((hEq k hk).2).symm
            · exact (rur_frame f st1 (get_right_child c) _ _ _ k hk).2
        rw [rur_succ_part hns1 h1 h2]
        simp only [hp_none hlz1]
        rw [hA, hB]
        have hmax : max (st1.tree (get_left_child c)) (st1.tree (get_right_child c)) =
            st1.tree c := by
          have hlc : get_left_child c ≠ c := by simp only [get_left_child]; omega
          have hrc : get_right_child c ≠ c := by simp only [get_right_child]; omega
          rw [hst1]
          simp only [setTree_tree]
          rw [if_neg hlc, if_neg hrc]
          simp
        rw [hmax]
        exact setTree_self st1 c

end MaxSegmentTree

/-! ## Read-only character of the existence query -/

namespace MaxSegmentTree

theorem cto_tree_only : ∀ (fuel : Nat) (st st' : MaxSegmentTree) (c s e k : Nat),
    st.tree = st'.tree →
    check_total_overlap fuel st c s e k = check_total_overlap fuel st' c s e k := by
  intro fuel
  induction fuel with
  | zero => intro st st' c s e k h; rfl
  | succ f ih =>
    intro st st' c s e k h
    simp only [check_total_overlap, h]
    split
    · rfl
    · split
      · rfl
      · split
        · rfl
        · rw [ih st st' _ _ _ _ h, ih st st' _ _ _ _ h]

theorem is_there_rec_tree_only : ∀ (fuel : Nat) (st st' : MaxSegmentTree) (c qs qe k : Nat),
    st.tree = st'.tree → st.ranges = st'.ranges →
    is_there_recursive fuel st c qs qe k = is_there_recursive fuel st' c qs qe k := by
  intro fuel
  induction fuel with
  | zero => intro st st' c qs qe k h1 h2; rfl
  | succ f ih =>
    intro st st' c qs qe k h1 h2
    simp only [is_there_recursive, h1, h2]
    split
    · split
      · rfl
      · exact cto_tree_only (f + 1) st st' _ _ _ _ h1
    · split
      · rfl
      · rw [ih st st' _ _ _ _ h1 h2, ih st st' _ _ _ _ h1 h2]

end MaxSegmentTree

/-! ## Claim theorems (first group) -/

namespace MaxSegmentTree

/-- C4 counterexample: the claim says all three operations subtract one from
their 1-based start/end indices, so `contains(1, 1, k)` would inspect internal
index `0` (where `new [5, 7]` holds `5`) and `contains(2, 2, 7)` would inspect
internal index `1` (where it holds `7`).  The code gives the opposite answers:
`is_there` passes its indices through unchanged (0-based), so query `(1, 1)`
sees the `7` at internal index `1` and query `(2, 2)` sees nothing. -/
theorem c4_counterexample :
    is_there (new [5, 7]) 1 1 7 = 1 ∧ is_there (new [5, 7]) 2 2 7 = 0 := by
  decide

/-- C4 amended: `range_clamp` (`range_update`) and `range_max`
(`range_max_query_lazy`) translate their 1-based external indices to the
0-based internal range `[s - 1, e - 1]` at the boundary; `contains`
(`is_there`) passes its indices through to the recursion unchanged. -/
theorem c4_amended :
    (∀ (st : MaxSegmentTree) (s e v : Nat),
      range_update st s e v = range_update_recursive st.size st 0 (s - 1) (e - 1) v) ∧
    (∀ (st : MaxSegmentTree) (s e : Nat),
      range_max_query_lazy st s e =
        range_max_query_lazy_recursive st.size st 0 (s - 1) (e - 1)) ∧
    (∀ (st : MaxSegmentTree) (s e k : Nat),
      is_there st s e k =
        if 1 ≤ is_there_recursive st.size st 0 s e k then 1 else 0) :=
  ⟨fun _ _ _ _ => rfl, fun _ _ _ => rfl, fun _ _ _ _ => rfl⟩

/-- C5 counterexample: after `new [1, 5]` and `range_clamp(1, 2, 3)` (a
reachable state), node `1` (the leaf for position `0`) stores value `1` but
carries the pending update `3`, and `3 ≤ 1` is false — so the claimed
invariant `pending_update(i) ≤ value(i)` does not hold in every reachable
state. -/
theorem c5_counterexample :
    (range_update (new [1, 5]) 1 2 3).lazy_updates 1 = some 3 ∧
    (range_update (new [1, 5]) 1 2 3).tree 1 = 1 ∧ ¬ (3 ≤ 1) := by
  decide

/-- C5 amended: a pending update at node `i` is a clamp not yet applied to
node `i` itself (nor to its subtree): resolving it through
`handle_pending_update` folds it into the incoming value by `min`, replaces
`value(i)` by `min(value(i), u)`, clears `pending_update(i)`, and, when `i` is
internal, merges `u` into both children's pending updates by `min` (leaves get
no push).  No ordering between the pending value and `value(i)` is
guaranteed. -/
theorem c5_amended (st : MaxSegmentTree) (i v s e u : Nat)
    (h : st.lazy_updates i = some u) :
    (handle_pending_update st i v s e).1 = min v u ∧
    (handle_pending_update st i v s e).2.tree i = min (st.tree i) u ∧
    (handle_pending_update st i v s e).2.lazy_updates i = none ∧
    (s < e →
      (handle_pending_update st i v s e).2.lazy_updates (2 * i + 1) =
        mergeO (some u) (st.lazy_updates (2 * i + 1)) ∧
      (handle_pending_update st i v s e).2.lazy_updates (2 * i + 2) =
        mergeO (some u) (st.lazy_updates (2 * i + 2))) ∧
    (¬ s < e →
      (handle_pending_update st i v s e).2.lazy_updates (2 * i + 1) =
        st.lazy_updates (2 * i + 1) ∧
      (handle_pending_update st i v s e).2.lazy_updates (2 * i + 2) =
        st.lazy_updates (2 * i + 2)) := by
  refine ⟨by rw [hp_fst, h, clampOf_some, Nat.min_comm], ?_, hp_lazy_self st i v s e, ?_, ?_⟩
  · simp only [handle_pending_update, h]
    rw [show (propagate_lazy_update _ i u s e).tree = _ from plu_tree _ _ _ _ _]
    rw [setTree_tree, if_pos rfl, setLazy_tree]
  · intro hse
    exact ⟨hp_lazy_left st i v h hse, hp_lazy_right st i v h hse⟩
  · intro hse
    constructor
    · simp only [handle_pending_update, h]
      rw [plu_leaf _ _ _ _ _ hse, setTree_lazy, setLazy_lazy, if_neg (by omega)]
    · simp only [handle_pending_update, h]
      rw [plu_leaf _ _ _ _ _ hse, setTree_lazy, setLazy_lazy, if_neg (by omega)]

/-- Witness for the amended C5 at a concrete reachable state: after
`new [1, 5]` and `range_clamp(1, 2, 3)`, resolving the pending `3` at leaf
node `1` (range `(0, 0)`) with incoming value `10`. -/
theorem c5_amended_witness :
    (range_update (new [1, 5]) 1 2 3).lazy_updates 1 = some 3 ∧
    ((handle_pending_update (range_update (new [1, 5]) 1 2 3) 1 10 0 0).1 = min 10 3 ∧
     (handle_pending_update (range_update (new [1, 5]) 1 2 3) 1 10 0 0).2.tree 1 =
       min ((range_update (new [1, 5]) 1 2 3).tree 1) 3 ∧
     (handle_pending_update (range_update (new [1, 5]) 1 2 3) 1 10 0 0).2.lazy_updates 1 =
       none ∧
     ((0 : Nat) < 0 →
       (handle_pending_update (range_update (new [1, 5]) 1 2 3) 1 10 0 0).2.lazy_updates 3 =
         mergeO (some 3) ((range_update (new [1, 5]) 1 2 3).lazy_updates 3) ∧
       (handle_pending_update (range_update (new [1, 5]) 1 2 3) 1 10 0 0).2.lazy_updates 4 =
         mergeO (some 3) ((range_update (new [1, 5]) 1 2 3).lazy_updates 4)) ∧
     (¬ (0 : Nat) < 0 →
       (handle_pending_update (range_update (new [1, 5]) 1 2 3) 1 10 0 0).2.lazy_updates 3 =
         (range_update (new [1, 5]) 1 2 3).lazy_updates 3 ∧
       (handle_pending_update (range_update (new [1, 5]) 1 2 3) 1 10 0 0).2.lazy_updates 4 =
         (range_update (new [1, 5]) 1 2 3).lazy_updates 4)) :=
  ⟨by decide, c5_amended (range_update (new [1, 5]) 1 2 3) 1 10 0 0 3 (by decide)⟩

/-- C7: applying `range_clamp(s, e, v)` twice in succession yields exactly the
same tree state (values, ranges and pending lazy updates) as applying it once
— for every state, range and value. -/
theorem c7_clamp_idempotent (st : MaxSegmentTree) (s e v : Nat) :
    range_update (range_update st s e v) s e v = range_update st s e v := by
  unfold range_update
  rw [rur_size]
  exact rur_absorb st.size st 0 (s - 1) (e - 1) v v (Nat.le_refl v)

/-- C8: for `v1 ≤ v2`, clamping by `v1` and then by `v2` over the same range
yields exactly the same tree state as clamping only by `v1` — for every state
and range. -/
theorem c8_clamp_monotone (st : MaxSegmentTree) (s e v1 v2 : Nat) (h : v1 ≤ v2) :
    range_update (range_update st s e v1) s e v2 = range_update st s e v1 := by
  unfold range_update
  rw [rur_size]
  exact rur_absorb st.size st 0 (s - 1) (e - 1) v1 v2 h

/-- Witness for C8 at a concrete input: clamping `[4, 7]` on the 1-based range
`[1, 2]` by `3` and then by `5` equals clamping by `3` alone. -/
theorem c8_clamp_monotone_witness :
    (3 : Nat) ≤ 5 ∧
    range_update (range_update (new [4, 7]) 1 2 3) 1 2 5 =
      range_update (new [4, 7]) 1 2 3 :=
  ⟨by decide, c8_clamp_monotone (new [4, 7]) 1 2 3 5 (by decide)⟩

/-- C10: `contains` never touches the tree state.  In the embedding `is_there`
is a pure function of the state (the Rust method takes `&self`, so the state
after the call is definitionally the state before), and moreover its result
depends only on the `tree` and `ranges` vectors: it never reads (let alone
resolves or pushes) any pending lazy update. -/
theorem c10_contains_pure (st st' : MaxSegmentTree) (qs qe k : Nat)
    (h1 : st.size = st'.size) (h2 : st.tree = st'.tree) (h3 : st.ranges = st'.ranges) :
    is_there st qs qe k = is_there st' qs qe k := by
  unfold is_there
  rw [h1, is_there_rec_tree_only st'.size st st' 0 qs qe k h2 h3]

/-- Witness for C10: the query result on `new [5, 7]` is unchanged when an
arbitrary pending update is planted at the root. -/
theorem c10_contains_pure_witness :
    (new [5, 7]).size = (setLazy (new [5, 7]) 0 (some 3)).size ∧
    (new [5, 7]).tree = (setLazy (new [5, 7]) 0 (some 3)).tree ∧
    (new [5, 7]).ranges = (setLazy (new [5, 7]) 0 (some 3)).ranges ∧
    is_there (new [5, 7]) 0 1 7 = is_there (setLazy (new [5, 7]) 0 (some 3)) 0 1 7 :=
  ⟨rfl, rfl, rfl, c10_contains_pure (new [5, 7]) (setLazy (new [5, 7]) 0 (some 3))
    0 1 7 rfl rfl rfl⟩

end MaxSegmentTree

/-! ## Fuel irrelevance and `logVal` algebra -/

namespace MaxSegmentTree

theorem Descendant.cases_of {i k : Nat} (h : Descendant i k) :
    k = i ∨ Descendant (2 * i + 1) k ∨ Descendant (2 * i + 2) k := by
  cases h with
  | refl => exact Or.inl rfl
  | left _ h' => exact Or.inr (Or.inl h')
  | right _ h' => exact Or.inr (Or.inr h')

theorem Descendant.proper_ge {i k : Nat} (h : Descendant i k) (hne : k ≠ i) :
    2 * i + 1 ≤ k := by
  rcases h.cases_of with h' | h' | h'
  · exact absurd h' hne
  · exact h'.le
  · have := h'.le
    omega

theorem rangeOkB_fuel : ∀ (f g : Nat) (r : Nat → Nat × Nat) (i s e : Nat),
    s ≤ e → e - s < f → e - s < g → rangeOkB f r i s e = rangeOkB g r i s e := by
  intro f
  induction f with
  | zero => intro g r i s e hse hf hg; omega
  | succ f ih =>
    intro g r i s e hse hf hg
    match g, hg with
    | g + 1, hg =>
      simp only [rangeOkB]
      by_cases he : s = e
      · simp [he]
      · have hlt : s < e := by omega
        have hm1 : s ≤ (s + e) / 2 := mid_ge hse
        have hm2 : (s + e) / 2 < e := mid_lt hlt
        rw [ih g r (get_left_child i) s ((s + e) / 2) (by omega) (by omega) (by omega),
          ih g r (get_right_child i) ((s + e) / 2 + 1) e (by omega) (by omega) (by omega)]

theorem invB_fuel : ∀ (f g : Nat) (st : MaxSegmentTree) (i s e : Nat),
    s ≤ e → e - s < f → e - s < g → invB f st i s e = invB g st i s e := by
  intro f
  induction f with
  | zero => intro g st i s e hse hf hg; omega
  | succ f ih =>
    intro g st i s e hse hf hg
    match g, hg with
    | g + 1, hg =>
      simp only [invB]
      by_cases he : s = e
      · simp [he]
      · have hlt : s < e := by omega
        have hm1 : s ≤ (s + e) / 2 := mid_ge hse
        have hm2 : (s + e) / 2 < e := mid_lt hlt
        rw [if_neg he, if_neg he,
          ih g st (get_left_child i) s ((s + e) / 2) (by omega) (by omega) (by omega),
          ih g st (get_right_child i) ((s + e) / 2 + 1) e (by omega) (by omega) (by omega)]

theorem noLazyB_fuel : ∀ (f g : Nat) (st : MaxSegmentTree) (i s e : Nat),
    s ≤ e → e - s < f → e - s < g → noLazyB f st i s e = noLazyB g st i s e := by
  intro f
  induction f with
  | zero => intro g st i s e hse hf hg; omega
  | succ f ih =>
    intro g st i s e hse hf hg
    match g, hg with
    | g + 1, hg =>
      simp only [noLazyB]
      by_cases he : s = e
      · simp [he]
      · have hlt : s < e := by omega
        have hm1 : s ≤ (s + e) / 2 := mid_ge hse
        have hm2 : (s + e) / 2 < e := mid_lt hlt
        rw [ih g st (get_left_child i) s ((s + e) / 2) (by omega) (by omega) (by omega),
          ih g st (get_right_child i) ((s + e) / 2 + 1) e (by omega) (by omega) (by omega)]

theorem logVal_fuel : ∀ (f g : Nat) (st : MaxSegmentTree) (i s e : Nat) (c : Option Nat)
    (j : Nat), s ≤ e → e - s < f → e - s < g →
    logVal f st i s e c j = logVal g st i s e c j := by
  intro f
  induction f with
  | zero => intro g st i s e c j hse hf hg; omega
  | succ f ih =>
    intro g st i s e c j hse hf hg
    match g, hg with
    | g + 1, hg =>
      simp only [logVal]
      by_cases he : s = e
      · simp [he]
      · have hlt : s < e := by omega
        have hm1 : s ≤ (s + e) / 2 := mid_ge hse
        have hm2 : (s + e) / 2 < e := mid_lt hlt
        rw [if_neg he, if_neg he]
        by_cases hj : j ≤ (s + e) / 2
        · rw [if_pos hj, if_pos hj,
            ih g st (get_left_child i) s ((s + e) / 2) _ j (by omega) (by omega) (by omega)]
        · rw [if_neg hj, if_neg hj,
            ih g st (get_right_child i) ((s + e) / 2 + 1) e _ j (by omega) (by omega)
              (by omega)]

theorem logVal_acc : ∀ (f : Nat) (st : MaxSegmentTree) (i s e : Nat) (c : Option Nat)
    (j : Nat), logVal f st i s e c j = clampOf c (logVal f st i s e none j) := by
  intro f
  induction f with
  | zero =>
    intro st i s e c j
    cases c with
    | none => rfl
    | some u => simp [logVal, clampOf]
  | succ f ih =>
    intro st i s e c j
    simp only [logVal, mergeO_none_left]
    split
    · rw [clampOf_mergeO]
    · split
      · rw [ih st (get_left_child i) _ _ (mergeO c (st.lazy_updates i)) j,
          ih st (get_left_child i) _ _ (st.lazy_updates i) j, clampOf_mergeO]
      · rw [ih st (get_right_child i) _ _ (mergeO c (st.lazy_updates i)) j,
          ih st (get_right_child i) _ _ (st.lazy_updates i) j, clampOf_mergeO]

theorem logVal_congr : ∀ (f : Nat) (st st' : MaxSegmentTree) (i s e : Nat) (c : Option Nat)
    (j : Nat), EqOn st st' i → logVal f st i s e c j = logVal f st' i s e c j := by
  intro f
  induction f with
  | zero => intro st st' i s e c j h; rfl
  | succ f ih =>
    intro st st' i s e c j h
    simp only [logVal, (h.self).1, (h.self).2]
    split
    · rfl
    · split
      · exact ih st st' (get_left_child i) _ _ _ j
          (by simpa only [get_left_child] using h.childL)
      · exact ih st st' (get_right_child i) _ _ _ j
          (by simpa only [get_right_child] using h.childR)

theorem invB_congr : ∀ (f : Nat) (st st' : MaxSegmentTree) (i s e : Nat),
    (∀ k, Descendant i k → st.tree k = st'.tree k) →
    (∀ k, Descendant i k → k ≠ i → st.lazy_updates k = st'.lazy_updates k) →
    invB f st i s e = invB f st' i s e := by
  intro f
  induction f with
  | zero => intro st st' i s e h1 h2; rfl
  | succ f ih =>
    intro st st' i s e h1 h2
    simp only [invB]
    split
    · rfl
    · have htl := h1 (2 * i + 1) (Descendant.child_left i)
      have htr := h1 (2 * i + 2) (Descendant.child_right i)
      have hll := h2 (2 * i + 1) (Descendant.child_left i) (by omega)
      have hlr := h2 (2 * i + 2) (Descendant.child_right i) (by omega)
      have hefl : eff st (get_left_child i) = eff st' (get_left_child i) := by
        simp only [get_left_child, eff, htl, hll]
      have hefr : eff st (get_right_child i) = eff st' (get_right_child i) := by
        simp only [get_right_child, eff, htr, hlr]
      rw [h1 i (Descendant.refl i), hefl, hefr,
        ih st st' (get_left_child i) _ _
          (fun k hk => h1 k ((Descendant.child_left i).trans
            (by simpa only [get_left_child] using hk)))
          (fun k hk hne => h2 k ((Descendant.child_left i).trans
            (by simpa only [get_left_child] using hk))
            (by
              have := ((by simpa only [get_left_child] using hk :
                Descendant (2 * i + 1) k)).le
              omega)),
        ih st st' (get_right_child i) _ _
          (fun k hk => h1 k ((Descendant.child_right i).trans
            (by simpa only [get_right_child] using hk)))
          (fun k hk hne => h2 k ((Descendant.child_right i).trans
            (by simpa only [get_right_child] using hk))
            (by
              have := ((by simpa only [get_right_child] using hk :
                Descendant (2 * i + 2) k)).le
              omega))]

theorem noLazyB_congr : ∀ (f : Nat) (st st' : MaxSegmentTree) (i s e : Nat),
    (∀ k, Descendant i k → st.lazy_updates k = st'.lazy_updates k) →
    noLazyB f st i s e = noLazyB f st' i s e := by
  intro f
  induction f with
  | zero => intro st st' i s e h; rfl
  | succ f ih =>
    intro st st' i s e h
    simp only [noLazyB, h i (Descendant.refl i)]
    split
    · rfl
    · rw [ih st st' (get_left_child i) _ _
        (fun k hk => h k ((Descendant.child_left i).trans
          (by simpa only [get_left_child] using hk))),
        ih st st' (get_right_child i) _ _
        (fun k hk => h k ((Descendant.child_right i).trans
          (by simpa only [get_right_child] using hk)))]

end MaxSegmentTree

/-! ## `handle_pending_update` preserves the logical values and the invariant -/

namespace MaxSegmentTree

theorem setLazy_lazy_self (st : MaxSegmentTree) (i : Nat) (v : Option Nat) :
    (setLazy st i v).lazy_updates i = v := by
  rw [setLazy_lazy]
  simp

theorem setTree_tree_self (st : MaxSegmentTree) (i v : Nat) :
    (setTree st i v).tree i = v := by
  rw [setTree_tree]
  simp

theorem logVal_push (f : Nat) (st : MaxSegmentTree) (i s e : Nat) (c : Option Nat)
    (j u : Nat) :
    logVal f (setLazy st i (mergeO (some u) (st.lazy_updates i))) i s e c j =
      logVal f st i s e (mergeO c (some u)) j := by
  cases f with
  | zero => rfl
  | succ f =>
    simp only [logVal, setLazy_lazy_self]
    have hacc : mergeO c (mergeO (some u) (st.lazy_updates i)) =
        mergeO (mergeO c (some u)) (st.lazy_updates i) :=
      (mergeO_assoc c (some u) (st.lazy_updates i)).symm
    rw [hacc]
    split
    · rfl
    · split
      · exact logVal_congr f _ st (get_left_child i) _ _ _ j (fun k hk =>
          ⟨rfl, by
            rw [setLazy_lazy, if_neg (by
              have := hk.le
              simp only [get_left_child] at this
              omega)]⟩)
      · exact logVal_congr f _ st (get_right_child i) _ _ _ j (fun k hk =>
          ⟨rfl, by
            rw [setLazy_lazy, if_neg (by
              have := hk.le
              simp only [get_right_child] at this
              omega)]⟩)

theorem hp_logVal (f : Nat) (st : MaxSegmentTree) (i s e v : Nat) (c : Option Nat)
    (j : Nat) (hse : s ≤ e) :
    logVal f (handle_pending_update st i v s e).2 i s e c j = logVal f st i s e c j := by
  cases f with
  | zero => rfl
  | succ f =>
    simp only [logVal, hp_lazy_self, mergeO_none_right]
    by_cases he : s = e
    · rw [if_pos he, if_pos he, hp_tree_self, clampOf_mergeO]
      rfl
    · rw [if_neg he, if_neg he]
      have hlt : s < e := by omega
      cases hu : st.lazy_updates i with
      | none =>
        rw [mergeO_none_right]
        have : (handle_pending_update st i v s e).2 = st := by rw [hp_none hu]
        rw [this]
      | some u =>
        have key : ∀ ch s' e',
            2 * i + 1 ≤ ch → ch ≤ 2 * i + 2 →
            (handle_pending_update st i v s e).2.lazy_updates ch =
              mergeO (some u) (st.lazy_updates ch) →
            logVal f (handle_pending_update st i v s e).2 ch s' e' c j =
              logVal f st ch s' e' (mergeO c (some u)) j := by
          intro ch s' e' hge hle hch
          have hcongr : EqOn (handle_pending_update st i v s e).2
              (setLazy st ch (mergeO (some u) (st.lazy_updates ch))) ch := by
            intro k hk
            have hki : k ≠ i := by
              have := hk.le
              omega
            constructor
            · rw [hp_tree_ne st v s e hki, setLazy_tree]
            · by_cases hkc : k = ch
              · subst hkc
                rw [hch, setLazy_lazy_self]
              · have hk2 : 2 * ch + 1 ≤ k := hk.proper_ge hkc
                rw [hp_lazy_ne st v s e hki (by omega) (by omega), setLazy_lazy,
                  if_neg hkc]
          rw [logVal_congr f _ _ ch s' e' c j hcongr]
          exact logVal_push f st ch s' e' c j u
        by_cases hj : j ≤ (s + e) / 2
        · rw [if_pos hj, if_pos hj]
          exact key (get_left_child i) s ((s + e) / 2)
            (by simp only [get_left_child]; omega)
            (by simp only [get_left_child]; omega)
            (by simpa only [get_left_child] using hp_lazy_left st i v hu hlt)
        · rw [if_neg hj, if_neg hj]
          exact key (get_right_child i) ((s + e) / 2 + 1) e
            (by simp only [get_right_child]; omega)
            (by simp only [get_right_child]; omega)
            (by simpa only [get_right_child] using hp_lazy_right st i v hu hlt)

theorem hp_eff (st : MaxSegmentTree) (i v s e : Nat) :
    eff (handle_pending_update st i v s e).2 i = eff st i := by
  rw [eff, hp_lazy_self, hp_tree_self]
  rfl

theorem hp_eff_child_left {st : MaxSegmentTree} {i s e u : Nat} (v : Nat)
    (hu : st.lazy_updates i = some u) (hlt : s < e) :
    eff (handle_pending_update st i v s e).2 (get_left_child i) =
      min u (eff st (get_left_child i)) := by
  rw [eff,
    show (handle_pending_update st i v s e).2.lazy_updates (get_left_child i) =
        mergeO (some u) (st.lazy_updates (get_left_child i)) from
      by simpa only [get_left_child] using hp_lazy_left st i v hu hlt,
    hp_tree_ne st v s e (show get_left_child i ≠ i by simp only [get_left_child]; omega),
    clampOf_mergeO, clampOf_some]
  rfl

theorem hp_eff_child_right {st : MaxSegmentTree} {i s e u : Nat} (v : Nat)
    (hu : st.lazy_updates i = some u) (hlt : s < e) :
    eff (handle_pending_update st i v s e).2 (get_right_child i) =
      min u (eff st (get_right_child i)) := by
  rw [eff,
    show (handle_pending_update st i v s e).2.lazy_updates (get_right_child i) =
        mergeO (some u) (st.lazy_updates (get_right_child i)) from
      by simpa only [get_right_child] using hp_lazy_right st i v hu hlt,
    hp_tree_ne st v s e (show get_right_child i ≠ i by simp only [get_right_child]; omega),
    clampOf_mergeO, clampOf_some]
  rfl

theorem hp_invB (f : Nat) (st : MaxSegmentTree) (i s e v : Nat) (hse : s ≤ e)
    (h : invB f st i s e = true) :
    invB f (handle_pending_update st i v s e).2 i s e = true := by
  cases hu : st.lazy_updates i with
  | none => rw [hp_none hu]; exact h
  | some u =>
    cases f with
    | zero => exact absurd h (by simp [invB])
    | succ f =>
      by_cases he : s = e
      · simp [invB, he]
      · have hlt : s < e := by omega
        simp only [invB, if_neg he, Bool.and_eq_true, beq_iff_eq] at h ⊢
        obtain ⟨⟨ht, hl⟩, hr⟩ := h
        refine ⟨⟨?_, ?_⟩, ?_⟩
        · rw [hp_tree_self, eff, hu, clampOf_some, hp_eff_child_left v hu hlt,
            hp_eff_child_right v hu hlt, ht, min_max_distrib_left]
        · rw [invB_congr f _ st (get_left_child i) _ _
            (fun k hk => hp_tree_ne st v s e (by
              have := hk.le
              simp only [get_left_child] at this
              omega))
            (fun k hk hne => by
              have h1 := hk.le
              have h2 := hk.proper_ge hne
              simp only [get_left_child] at h1 h2
              exact hp_lazy_ne st v s e (by omega) (by omega) (by omega))]
          exact hl
        · rw [invB_congr f _ st (get_right_child i) _ _
            (fun k hk => hp_tree_ne st v s e (by
              have := hk.le
              simp only [get_right_child] at this
              omega))
            (fun k hk hne => by
              have h1 := hk.le
              have h2 := hk.proper_ge hne
              simp only [get_right_child] at h1 h2
              exact hp_lazy_ne st v s e (by omega) (by omega) (by omega))]
          exact hr

end MaxSegmentTree

/-! ## The invariant determines subtree maxima of logical values -/

namespace MaxSegmentTree

theorem clampOf_max (c : Option Nat) (a b : Nat) :
    clampOf c (max a b) = max (clampOf c a) (clampOf c b) := by
  cases c with
  | none => rfl
  | some u => exact min_max_distrib_left u a b

theorem logVal_max : ∀ (f : Nat) (st : MaxSegmentTree) (i s e : Nat) (c : Option Nat),
    s ≤ e → e - s < f → invB f st i s e = true →
    listMax ((winIdx s e).map (logVal f st i s e c)) = clampOf c (eff st i) := by
  intro f
  induction f with
  | zero => intro st i s e c hse hf hinv; omega
  | succ f ih =>
    intro st i s e c hse hf hinv
    by_cases he : s = e
    · subst he
      rw [winIdx_single]
      simp only [List.map_cons, List.map_nil, listMax_cons, listMax_nil, Nat.max_zero]
      simp only [logVal, if_pos rfl]
      rw [clampOf_mergeO]
      rfl
    · have hlt : s < e := by omega
      have hm1 : s ≤ (s + e) / 2 := mid_ge hse
      have hm2 : (s + e) / 2 < e := mid_lt hlt
      simp only [invB, if_neg he, Bool.and_eq_true, beq_iff_eq] at hinv
      obtain ⟨⟨ht, hl⟩, hr⟩ := hinv
      rw [winIdx_split s ((s + e) / 2) e (by omega) (by omega), List.map_append,
        listMax_append]
      have hmapl : (winIdx s ((s + e) / 2)).map (logVal (f + 1) st i s e c) =
          (winIdx s ((s + e) / 2)).map
            (logVal f st (get_left_child i) s ((s + e) / 2)
              (mergeO c (st.lazy_updates i))) := by
        apply List.map_congr_left
        intro a ha
        obtain ⟨ha1, ha2⟩ := mem_winIdx.mp ha
        simp only [logVal, if_neg he, if_pos ha2]
      have hmapr : (winIdx ((s + e) / 2 + 1) e).map (logVal (f + 1) st i s e c) =
          (winIdx ((s + e) / 2 + 1) e).map
            (logVal f st (get_right_child i) ((s + e) / 2 + 1) e
              (mergeO c (st.lazy_updates i))) := by
        apply List.map_congr_left
        intro a ha
        obtain ⟨ha1, ha2⟩ := mem_winIdx.mp ha
        simp only [logVal, if_neg he, if_neg (by omega : ¬ a ≤ (s + e) / 2)]
      rw [hmapl, hmapr,
        ih st (get_left_child i) s ((s + e) / 2) (mergeO c (st.lazy_updates i))
          (by omega) (by omega) hl,
        ih st (get_right_child i) ((s + e) / 2 + 1) e (mergeO c (st.lazy_updates i))
          (by omega) (by omega) hr,
        ← clampOf_max, ← ht, clampOf_mergeO]
      rfl

theorem logVal_attained (f : Nat) (st : MaxSegmentTree) (i s e : Nat) (c : Option Nat)
    (hse : s ≤ e) (hf : e - s < f) (hinv : invB f st i s e = true) :
    ∃ j, s ≤ j ∧ j ≤ e ∧ logVal f st i s e c j = clampOf c (eff st i) := by
  have hmem := listMax_mem (l := (winIdx s e).map (logVal f st i s e c))
    (by
      intro hcon
      exact winIdx_ne_nil hse (List.map_eq_nil_iff.mp hcon))
  rw [logVal_max f st i s e c hse hf hinv] at hmem
  obtain ⟨j, hj, hval⟩ := List.mem_map.mp hmem
  obtain ⟨hj1, hj2⟩ := mem_winIdx.mp hj
  exact ⟨j, hj1, hj2, hval⟩

theorem logVal_le (f : Nat) (st : MaxSegmentTree) (i s e : Nat) (c : Option Nat) (j : Nat)
    (hse : s ≤ e) (hf : e - s < f) (hinv : invB f st i s e = true)
    (hj1 : s ≤ j) (hj2 : j ≤ e) :
    logVal f st i s e c j ≤ clampOf c (eff st i) := by
  rw [← logVal_max f st i s e c hse hf hinv]
  exact le_listMax_of_mem (List.mem_map_of_mem _ (mem_winIdx.mpr ⟨hj1, hj2⟩))

end MaxSegmentTree

/-! ## Window lemmas for range queries -/

namespace MaxSegmentTree

theorem winIdx_split_mid (a b m : Nat) :
    winIdx a b = winIdx a (min m b) ++ winIdx (max (m + 1) a) b := by
  by_cases hab : b < a
  · rw [winIdx_empty a b hab, winIdx_empty a (min m b) (by omega),
      winIdx_empty (max (m + 1) a) b (by omega), List.nil_append]
  · by_cases hbm : b ≤ m
    · rw [Nat.min_eq_right hbm, winIdx_empty (max (m + 1) a) b (by omega), List.append_nil]
    · by_cases ham : m + 1 ≤ a
      · rw [winIdx_empty a (min m b) (by omega), Nat.max_eq_right ham, List.nil_append]
      · rw [Nat.min_eq_left (by omega), Nat.max_eq_left (by omega)]
        exact winIdx_split a m b (by omega) (by omega)

theorem windowMax_congr {g h : Nat → Nat} (qs qe s e : Nat)
    (hfg : ∀ j, max s qs ≤ j → j ≤ min e qe → g j = h j) :
    windowMax g qs qe s e = windowMax h qs qe s e := by
  unfold windowMax
  congr 1
  apply List.map_congr_left
  intro a ha
  obtain ⟨h1, h2⟩ := mem_winIdx.mp ha
  exact hfg a h1 h2

theorem windowMax_split (g : Nat → Nat) (qs qe s e m : Nat) (h1 : s ≤ m) (h2 : m < e) :
    windowMax g qs qe s e =
      max (windowMax g qs (min m qe) s m) (windowMax g (max (m + 1) qs) qe (m + 1) e) := by
  unfold windowMax
  rw [winIdx_split_mid (max s qs) (min e qe) m, List.map_append, listMax_append]
  have e1 : winIdx (max s qs) (min m (min e qe)) =
      winIdx (max s qs) (min m (min m qe)) := by
    congr 1
    omega
  have e2 : winIdx (max (m + 1) (max s qs)) (min e qe) =
      winIdx (max (m + 1) (max (m + 1) qs)) (min e qe) := by
    congr 1
    omega
  rw [e1, e2]

theorem windowMax_total {g : Nat → Nat} {qs qe s e : Nat} (h1 : qs ≤ s) (h2 : e ≤ qe) :
    windowMax g qs qe s e = listMax ((winIdx s e).map g) := by
  unfold windowMax
  rw [Nat.max_eq_left h1, Nat.min_eq_left h2]

theorem windowMax_empty {g : Nat → Nat} {qs qe s e : Nat} (h : qe < s ∨ e < qs) :
    windowMax g qs qe s e = 0 := by
  unfold windowMax
  rw [winIdx_empty (max s qs) (min e qe) (by omega)]
  rfl

theorem windowMax_single {g : Nat → Nat} {qs qe s e j : Nat}
    (h1 : max s qs = j) (h2 : min e qe = j) :
    windowMax g qs qe s e = g j := by
  unfold windowMax
  rw [h1, h2, winIdx_single]
  simp [listMax]

end MaxSegmentTree

/-! ## Specification of the lazy range-max query -/

namespace MaxSegmentTree

theorem rangeOkB_self {f : Nat} {r : Nat → Nat × Nat} {i s e : Nat}
    (h : rangeOkB (f + 1) r i s e = true) : r i = (s, e) := by
  simp only [rangeOkB, Bool.and_eq_true, beq_iff_eq] at h
  exact h.1

theorem rangeOkB_children {f : Nat} {r : Nat → Nat × Nat} {i s e : Nat}
    (h : rangeOkB (f + 1) r i s e = true) (he : s ≠ e) :
    rangeOkB f r (get_left_child i) s ((s + e) / 2) = true ∧
    rangeOkB f r (get_right_child i) ((s + e) / 2 + 1) e = true := by
  simp only [rangeOkB, Bool.and_eq_true, beq_iff_eq] at h
  rcases h with ⟨-, h2⟩
  rw [if_neg he] at h2
  exact (Bool.and_eq_true _ _).mp h2

theorem invB_parts {f : Nat} {st : MaxSegmentTree} {i s e : Nat}
    (h : invB (f + 1) st i s e = true) (he : s ≠ e) :
    st.tree i = max (eff st (get_left_child i)) (eff st (get_right_child i)) ∧
    invB f st (get_left_child i) s ((s + e) / 2) = true ∧
    invB f st (get_right_child i) ((s + e) / 2 + 1) e = true := by
  simp only [invB, if_neg he, Bool.and_eq_true, beq_iff_eq] at h
  exact ⟨h.1.1, h.1.2, h.2⟩

theorem invB_assemble {f : Nat} {st : MaxSegmentTree} {i s e : Nat} (he : s ≠ e)
    (h1 : st.tree i = max (eff st (get_left_child i)) (eff st (get_right_child i)))
    (h2 : invB f st (get_left_child i) s ((s + e) / 2) = true)
    (h3 : invB f st (get_right_child i) ((s + e) / 2 + 1) e = true) :
    invB (f + 1) st i s e = true := by
  simp only [invB, if_neg he, Bool.and_eq_true, beq_iff_eq]
  exact ⟨⟨h1, h2⟩, h3⟩

theorem invB_leaf (f : Nat) (st : MaxSegmentTree) (i s : Nat) :
    invB (f + 1) st i s s = true := by
  simp [invB]

theorem logVal_step {f : Nat} {st : MaxSegmentTree} {i s e j : Nat} (he : s ≠ e)
    (hlz : st.lazy_updates i = none) :
    logVal (f + 1) st i s e none j =
      if j ≤ (s + e) / 2 then logVal f st (get_left_child i) s ((s + e) / 2) none j
      else logVal f st (get_right_child i) ((s + e) / 2 + 1) e none j := by
  simp only [logVal, hlz, mergeO_none_left, if_neg he]

theorem EqOn_sibling_left {stA stB : MaxSegmentTree} {c : Nat}
    (hfr : ∀ k, ¬ Descendant (get_right_child c) k →
      stB.tree k = stA.tree k ∧ stB.lazy_updates k = stA.lazy_updates k) :
    EqOn stB stA (get_left_child c) := by
  intro k hk
  exact hfr k (fun h2 => descendant_sibling_disjoint k c
    (by simpa only [get_left_child] using hk)
    (by simpa only [get_right_child] using h2))

theorem EqOn_sibling_right {stA stB : MaxSegmentTree} {c : Nat}
    (hfr : ∀ k, ¬ Descendant (get_left_child c) k →
      stB.tree k = stA.tree k ∧ stB.lazy_updates k = stA.lazy_updates k) :
    EqOn stB stA (get_right_child c) := by
  intro k hk
  exact hfr k (fun h1 => descendant_sibling_disjoint k c
    (by simpa only [get_left_child] using h1)
    (by simpa only [get_right_child] using hk))

theorem rmq_succ_total {f : Nat} {st : MaxSegmentTree} {c qs qe ns ne : Nat}
    (hr : st.ranges c = (ns, ne)) (h : qs ≤ ns ∧ ne ≤ qe) :
    range_max_query_lazy_recursive (f + 1) st c qs qe =
      ((handle_pending_update st c u32MAX ns ne).2.tree c,
        (handle_pending_update st c u32MAX ns ne).2) := by
  simp only [range_max_query_lazy_recursive, hr, if_pos h]

theorem rmq_succ_none {f : Nat} {st : MaxSegmentTree} {c qs qe ns ne : Nat}
    (hr : st.ranges c = (ns, ne)) (h1 : ¬ (qs ≤ ns ∧ ne ≤ qe))
    (h2 : qe < ns ∨ ne < qs) :
    range_max_query_lazy_recursive (f + 1) st c qs qe =
      (0, (handle_pending_update st c u32MAX ns ne).2) := by
  simp only [range_max_query_lazy_recursive, hr, if_neg h1, if_pos h2]

theorem rmq_succ_part {f : Nat} {st : MaxSegmentTree} {c qs qe ns ne : Nat}
    (hr : st.ranges c = (ns, ne)) (h1 : ¬ (qs ≤ ns ∧ ne ≤ qe))
    (h2 : ¬ (qe < ns ∨ ne < qs)) :
    range_max_query_lazy_recursive (f + 1) st c qs qe =
      (max
        (range_max_query_lazy_recursive f (handle_pending_update st c u32MAX ns ne).2
          (get_left_child c) qs (min ((ns + ne) / 2) qe)).1
        (range_max_query_lazy_recursive f
          (range_max_query_lazy_recursive f (handle_pending_update st c u32MAX ns ne).2
            (get_left_child c) qs (min ((ns + ne) / 2) qe)).2
          (get_right_child c) (max ((ns + ne) / 2 + 1) qs) qe).1,
       (range_max_query_lazy_recursive f
          (range_max_query_lazy_recursive f (handle_pending_update st c u32MAX ns ne).2
            (get_left_child c) qs (min ((ns + ne) / 2) qe)).2
          (get_right_child c) (max ((ns + ne) / 2 + 1) qs) qe).2) := by
  simp only [range_max_query_lazy_recursive, hr, if_neg h1, if_neg h2]

end MaxSegmentTree

namespace MaxSegmentTree

theorem rmq_spec : ∀ (f : Nat) (st : MaxSegmentTree) (i s e qs qe : Nat),
    rangeOkB f st.ranges i s e = true → invB f st i s e = true → s ≤ e → e - s < f →
    (range_max_query_lazy_recursive f st i qs qe).1 =
        windowMax (logVal f st i s e none) qs qe s e ∧
    (∀ j, logVal f (range_max_query_lazy_recursive f st i qs qe).2 i s e none j =
        logVal f st i s e none j) ∧
    invB f (range_max_query_lazy_recursive f st i qs qe).2 i s e = true ∧
    eff (range_max_query_lazy_recursive f st i qs qe).2 i = eff st i := by
  intro f
  induction f with
  | zero => intro st i s e qs qe hro hinv hse hf; omega
  | succ f ih =>
    intro st i s e qs qe hro hinv hse hf
    have hr : st.ranges i = (s, e) := rangeOkB_self hro
    by_cases h1 : qs ≤ s ∧ e ≤ qe
    · simp only [rmq_succ_total hr h1]
      refine ⟨?_, ?_, ?_, ?_⟩
      · rw [hp_tree_self, windowMax_total h1.1 h1.2,
          logVal_max (f + 1) st i s e none hse hf hinv]
        rfl
      · intro j
        exact hp_logVal (f + 1) st i s e u32MAX none j hse
      · exact hp_invB (f + 1) st i s e u32MAX hse hinv
      · exact hp_eff st i u32MAX s e
    · by_cases h2 : qe < s ∨ e < qs
      · simp only [rmq_succ_none hr h1 h2]
        refine ⟨?_, ?_, ?_, ?_⟩
        · rw [windowMax_empty h2]
        · intro j
          exact hp_logVal (f + 1) st i s e u32MAX none j hse
        · exact hp_invB (f + 1) st i s e u32MAX hse hinv
        · exact hp_eff st i u32MAX s e
      · -- Partial overlap
        have he : s ≠ e := by omega
        have hlt : s < e := by omega
        have hm1 : s ≤ (s + e) / 2 := mid_ge hse
        have hm2 : (s + e) / 2 < e := mid_lt hlt
        simp only [rmq_succ_part hr h1 h2]
        obtain ⟨hroL, hroR⟩ := rangeOkB_children hro he
        set ST := (handle_pending_update st i u32MAX s e).2 with hST
        have hSTro : ST.ranges = st.ranges := by rw [hST, hp_ranges]
        have hSTiv : invB (f + 1) ST i s e = true := by
          rw [hST]
          exact hp_invB (f + 1) st i s e u32MAX hse hinv
        obtain ⟨hSTt, hSTivL, hSTivR⟩ := invB_parts hSTiv he
        have hSTlz : ST.lazy_updates i = none := by rw [hST, hp_lazy_self]
        have hSTlog : ∀ (c0 : Option Nat) (j : Nat),
            logVal (f + 1) ST i s e c0 j = logVal (f + 1) st i s e c0 j := by
          intro c0 j
          rw [hST]
          exact hp_logVal (f + 1) st i s e u32MAX c0 j hse
        have IHl := ih ST (get_left_child i) s ((s + e) / 2) qs (min ((s + e) / 2) qe)
          (by rw [hSTro]; exact hroL) hSTivL (by omega) (by omega)
        set pl := range_max_query_lazy_recursive f ST (get_left_child i) qs
          (min ((s + e) / 2) qe) with hpl
        obtain ⟨IHl1, IHl2, IHl3, IHl4⟩ := IHl
        have hplro : pl.2.ranges = st.ranges := by rw [hpl, rmq_ranges, hSTro]
        have hplfr : ∀ k, ¬ Descendant (get_left_child i) k →
            pl.2.tree k = ST.tree k ∧ pl.2.lazy_updates k = ST.lazy_updates k := by
          intro k hk
          rw [hpl]
          exact rmq_frame f ST (get_left_child i) _ _ k hk
        have hEqR : EqOn pl.2 ST (get_right_child i) := EqOn_sibling_right hplfr
        have hplivR : invB f pl.2 (get_right_child i) ((s + e) / 2 + 1) e = true := by
          rw [invB_congr f pl.2 ST (get_right_child i) _ _
            (fun k hk => (hEqR k hk).1) (fun k hk _ => (hEqR k hk).2)]
          exact hSTivR
        have IHr := ih pl.2 (get_right_child i) ((s + e) / 2 + 1) e
          (max ((s + e) / 2 + 1) qs) qe
          (by rw [hplro]; exact hroR) hplivR (by omega) (by omega)
        set pr := range_max_query_lazy_recursive f pl.2 (get_right_child i)
          (max ((s + e) / 2 + 1) qs) qe with hpr
        obtain ⟨IHr1, IHr2, IHr3, IHr4⟩ := IHr
        have hprfr : ∀ k, ¬ Descendant (get_right_child i) k →
            pr.2.tree k = pl.2.tree k ∧ pr.2.lazy_updates k = pl.2.lazy_updates k := by
          intro k hk
          rw [hpr]
          exact rmq_frame f pl.2 (get_right_child i) _ _ k hk
        have hEqL : EqOn pr.2 pl.2 (get_left_child i) := EqOn_sibling_left hprfr
        have hprt_i : pr.2.tree i = ST.tree i := by
          rw [(hprfr i (by simpa only [get_right_child] using
              not_descendant_right_self i)).1,
            (hplfr i (by simpa only [get_left_child] using
              not_descendant_left_self i)).1]
        have hprlz_i : pr.2.lazy_updates i = none := by
          rw [(hprfr i (by simpa only [get_right_child] using
              not_descendant_right_self i)).2,
            (hplfr i (by simpa only [get_left_child] using
              not_descendant_left_self i)).2, hSTlz]
        refine ⟨?_, ?_, ?_, ?_⟩
        · rw [windowMax_split (logVal (f + 1) st i s e none) qs qe s e ((s + e) / 2)
            hm1 hm2]
          congr 1
          · rw [IHl1]
            apply windowMax_congr
            intro j hj1 hj2
            rw [← hSTlog none j, logVal_step he hSTlz, if_pos (by omega)]
          · rw [IHr1]
            apply windowMax_congr
            intro j hj1 hj2
            rw [logVal_congr f pl.2 ST (get_right_child i) _ _ none j hEqR,
              ← hSTlog none j, logVal_step he hSTlz, if_neg (by omega)]
        · intro j
          rw [logVal_step he hprlz_i, ← hSTlog none j, logVal_step he hSTlz]
          by_cases hj : j ≤ (s + e) / 2
          · rw [if_pos hj, if_pos hj,
              logVal_congr f pr.2 pl.2 (get_left_child i) _ _ none j hEqL, IHl2 j]
          · rw [if_neg hj, if_neg hj, IHr2 j,
              logVal_congr f pl.2 ST (get_right_child i) _ _ none j hEqR]
        · apply invB_assemble he
          · have heffL : eff pr.2 (get_left_child i) = eff ST (get_left_child i) := by
              calc eff pr.2 (get_left_child i) = eff pl.2 (get_left_child i) := by
                    rw [eff, eff, (hEqL _ (Descendant.refl _)).1,
                      (hEqL _ (Descendant.refl _)).2]
                _ = eff ST (get_left_child i) := IHl4
            have heffR : eff pr.2 (get_right_child i) = eff ST (get_right_child i) := by
              calc eff pr.2 (get_right_child i) = eff pl.2 (get_right_child i) := IHr4
                _ = eff ST (get_right_child i) := by
                    rw [eff, eff, (hEqR _ (Descendant.refl _)).1,
                      (hEqR _ (Descendant.refl _)).2]
            rw [hprt_i, heffL, heffR]
            exact hSTt
          · rw [invB_congr f pr.2 pl.2 (get_left_child i) _ _
              (fun k hk => (hEqL k hk).1) (fun k hk _ => (hEqL k hk).2)]
            exact IHl3
          · exact IHr3
        · rw [eff, hprlz_i, hprt_i, hST, hp_tree_self]
          rfl

end MaxSegmentTree

/-! ## Specification of `build` -/

namespace MaxSegmentTree

theorem rangeOkB_congr : ∀ (f : Nat) (r r' : Nat → Nat × Nat) (i s e : Nat),
    (∀ k, Descendant i k → r k = r' k) → rangeOkB f r i s e = rangeOkB f r' i s e := by
  intro f
  induction f with
  | zero => intro r r' i s e h; rfl
  | succ f ih =>
    intro r r' i s e h
    simp only [rangeOkB, h i (Descendant.refl i)]
    split
    · rfl
    · rw [ih r r' (get_left_child i) _ _
        (fun k hk => h k ((Descendant.child_left i).trans
          (by simpa only [get_left_child] using hk))),
        ih r r' (get_right_child i) _ _
        (fun k hk => h k ((Descendant.child_right i).trans
          (by simpa only [get_right_child] using hk)))]

theorem rangeOkB_assemble {f : Nat} {r : Nat → Nat × Nat} {i s e : Nat} (he : s ≠ e)
    (h1 : r i = (s, e))
    (h2 : rangeOkB f r (get_left_child i) s ((s + e) / 2) = true)
    (h3 : rangeOkB f r (get_right_child i) ((s + e) / 2 + 1) e = true) :
    rangeOkB (f + 1) r i s e = true := by
  simp only [rangeOkB, if_neg he, Bool.and_eq_true, beq_iff_eq]
  exact ⟨h1, h2, h3⟩

theorem rangeOkB_leaf {f : Nat} {r : Nat → Nat × Nat} {i s : Nat} (h1 : r i = (s, s)) :
    rangeOkB (f + 1) r i s s = true := by
  simp [rangeOkB, h1]

theorem build_succ_leaf {f : Nat} {arr : List Nat} {i s e : Nat} {st : MaxSegmentTree}
    (he : s = e) :
    build (f + 1) arr i s e st = setTree (setRange st i (s, e)) i (arr.getD s 0) := by
  simp only [build, if_pos he]

theorem build_succ_node {f : Nat} {arr : List Nat} {i s e : Nat} {st : MaxSegmentTree}
    (he : ¬ s = e) :
    build (f + 1) arr i s e st =
      setTree
        (build f arr (get_right_child i) ((s + e) / 2 + 1) e
          (build f arr (get_left_child i) s ((s + e) / 2) (setRange st i (s, e))))
        i
        (max
          ((build f arr (get_right_child i) ((s + e) / 2 + 1) e
            (build f arr (get_left_child i) s ((s + e) / 2)
              (setRange st i (s, e)))).tree (get_left_child i))
          ((build f arr (get_right_child i) ((s + e) / 2 + 1) e
            (build f arr (get_left_child i) s ((s + e) / 2)
              (setRange st i (s, e)))).tree (get_right_child i))) := by
  simp only [build, if_neg he]

theorem build_spec : ∀ (f : Nat) (arr : List Nat) (i s e : Nat) (st : MaxSegmentTree),
    s ≤ e → e - s < f → (∀ k, st.lazy_updates k = none) →
    rangeOkB f (build f arr i s e st).ranges i s e = true ∧
    invB f (build f arr i s e st) i s e = true ∧
    (∀ j, s ≤ j → j ≤ e →
      logVal f (build f arr i s e st) i s e none j = arr.getD j 0) := by
  intro f
  induction f with
  | zero => intro arr i s e st hse hf hlz; omega
  | succ f ih =>
    intro arr i s e st hse hf hlz
    by_cases he : s = e
    · rw [build_succ_leaf he]
      subst he
      have hri : (setTree (setRange st i (s, s)) i (arr.getD s 0)).ranges i = (s, s) := by
        rw [setTree_ranges, setRange_ranges]
        simp
      refine ⟨rangeOkB_leaf hri, invB_leaf f _ i s, ?_⟩
      intro j hj1 hj2
      have hj : j = s := by omega
      subst hj
      simp only [logVal, if_pos rfl, setTree_lazy, setRange_lazy, hlz i,
        mergeO_none_right, setTree_tree_self]
      rfl
    · rw [build_succ_node he]
      have hlt : s < e := by omega
      have hm1 : s ≤ (s + e) / 2 := mid_ge hse
      have hm2 : (s + e) / 2 < e := mid_lt hlt
      have hlz0 : ∀ k, (setRange st i (s, e)).lazy_updates k = none := by
        intro k
        rw [setRange_lazy]
        exact hlz k
      have IHl := ih arr (get_left_child i) s ((s + e) / 2) (setRange st i (s, e))
        (by omega) (by omega) hlz0
      set st1 := build f arr (get_left_child i) s ((s + e) / 2) (setRange st i (s, e))
        with hst1
      obtain ⟨IHl1, IHl2, IHl3⟩ := IHl
      have hlz1 : ∀ k, st1.lazy_updates k = none := by
        intro k
        rw [hst1, build_lazy]
        exact hlz0 k
      have IHr := ih arr (get_right_child i) ((s + e) / 2 + 1) e st1
        (by omega) (by omega) hlz1
      set st2 := build f arr (get_right_child i) ((s + e) / 2 + 1) e st1 with hst2
      obtain ⟨IHr1, IHr2, IHr3⟩ := IHr
      have hlz2 : ∀ k, st2.lazy_updates k = none := by
        intro k
        rw [hst2, build_lazy]
        exact hlz1 k
      have hfr2 : ∀ k, ¬ Descendant (get_right_child i) k →
          st2.tree k = st1.tree k ∧ st2.ranges k = st1.ranges k := by
        intro k hk
        rw [hst2]
        exact build_frame f arr (get_right_child i) _ _ st1 k hk
      have hEqL : EqOn st2 st1 (get_left_child i) := by
        intro k hk
        refine ⟨(hfr2 k (fun h2 => descendant_sibling_disjoint k i
          (by simpa only [get_left_child] using hk)
          (by simpa only [get_right_child] using h2))).1, ?_⟩
        rw [hlz2 k, hlz1 k]
      set stF := setTree st2 i (max (st2.tree (get_left_child i))
        (st2.tree (get_right_child i))) with hstF
      have hlzF : ∀ k, stF.lazy_updates k = none := by
        intro k
        rw [hstF, setTree_lazy]
        exact hlz2 k
      have hEqFL : EqOn stF st1 (get_left_child i) := by
        intro k hk
        have hki : k ≠ i := by
          have := hk.le
          simp only [get_left_child] at this
          omega
        refine ⟨?_, (hEqL k hk).2⟩
        rw [hstF, setTree_tree, if_neg hki]
        exact (hEqL k hk).1
      have hEqFR : EqOn stF st2 (get_right_child i) := by
        intro k hk
        have hki : k ≠ i := by
          have := hk.le
          simp only [get_right_child] at this
          omega
        refine ⟨?_, by rw [hstF, setTree_lazy]⟩
        rw [hstF, setTree_tree, if_neg hki]
      have hri : stF.ranges i = (s, e) := by
        rw [hstF, setTree_ranges,
          (hfr2 i (by simpa only [get_right_child] using
            not_descendant_right_self i)).2,
          hst1,
          (build_frame f arr (get_left_child i) s ((s + e) / 2) _ i
            (by simpa only [get_left_child] using not_descendant_left_self i)).2,
          setRange_ranges]
        simp
      refine ⟨?_, ?_, ?_⟩
      · apply rangeOkB_assemble he hri
        · have : stF.ranges = st2.ranges := by rw [hstF, setTree_ranges]
          rw [this,
            rangeOkB_congr f st2.ranges st1.ranges (get_left_child i) _ _
              (fun k hk => (hfr2 k (fun h2 => descendant_sibling_disjoint k i
                (by simpa only [get_left_child] using hk)
                (by simpa only [get_right_child] using h2))).2)]
          exact IHl1
        · have : stF.ranges = st2.ranges := by rw [hstF, setTree_ranges]
          rw [this]
          exact IHr1
      · apply invB_assemble he
        · have h1 : stF.tree i = max (st2.tree (get_left_child i))
              (st2.tree (get_right_child i)) := by
            rw [hstF, setTree_tree_self]
          have h2 : eff stF (get_left_child i) = st2.tree (get_left_child i) := by
            rw [eff, hlzF]
            have hki : get_left_child i ≠ i := by simp only [get_left_child]; omega
            rw [hstF, setTree_tree, if_neg hki]
            rfl
          have h3 : eff stF (get_right_child i) = st2.tree (get_right_child i) := by
            rw [eff, hlzF]
            have hki : get_right_child i ≠ i := by simp only [get_right_child]; omega
            rw [hstF, setTree_tree, if_neg hki]
            rfl
          rw [h1, h2, h3]
        · rw [invB_congr f stF st1 (get_left_child i) _ _
            (fun k hk => (hEqFL k hk).1) (fun k hk _ => (hEqFL k hk).2)]
          exact IHl2
        · rw [invB_congr f stF st2 (get_right_child i) _ _
            (fun k hk => (hEqFR k hk).1) (fun k hk _ => (hEqFR k hk).2)]
          exact IHr2
      · intro j hj1 hj2
        rw [logVal_step he (hlzF i)]
        by_cases hj : j ≤ (s + e) / 2
        · rw [if_pos hj,
            logVal_congr f stF st1 (get_left_child i) _ _ none j hEqFL]
          exact IHl3 j hj1 hj
        · rw [if_neg hj,
            logVal_congr f stF st2 (get_right_child i) _ _ none j hEqFR]
          exact IHr3 j (by omega) hj2

end MaxSegmentTree

/-! ## The freshly built tree and the claims about queries -/

namespace MaxSegmentTree

theorem map_getD_range : ∀ (A : List Nat),
    (List.range A.length).map (fun j => A.getD j 0) = A := by
  intro A
  induction A with
  | nil => rfl
  | cons a A ihA =>
    rw [List.length_cons, List.range_succ_eq_map, List.map_cons, List.map_map]
    have h2 : List.map ((fun j => (a :: A).getD j 0) ∘ Nat.succ) (List.range A.length)
        = A := by
      rw [show ((fun j => (a :: A).getD j 0) ∘ Nat.succ) = (fun j => A.getD j 0) from
        funext (fun j => by simp [Function.comp])]
      exact ihA
    rw [h2]
    rfl

theorem winIdx_zero (n : Nat) (h : 1 ≤ n) : winIdx 0 (n - 1) = List.range n := by
  unfold winIdx
  rw [List.range_eq_range']
  congr 1
  omega

theorem new_spec (A : List Nat) (h : 1 ≤ A.length) :
    rangeOkB A.length (new A).ranges 0 0 (A.length - 1) = true ∧
    invB A.length (new A) 0 0 (A.length - 1) = true ∧
    (∀ j, j ≤ A.length - 1 →
      logVal A.length (new A) 0 0 (A.length - 1) none j = A.getD j 0) ∧
    (∀ k, (new A).lazy_updates k = none) ∧
    (new A).size = 4 * A.length := by
  have hb := build_spec A.length A 0 0 (A.length - 1)
    { size := 4 * A.length
      tree := fun _ => 0
      ranges := fun _ => (0, 0)
      lazy_updates := fun _ => none }
    (by omega) (by omega) (fun _ => rfl)
  obtain ⟨h1, h2, h3⟩ := hb
  refine ⟨h1, h2, fun j hj => h3 j (Nat.zero_le j) hj, ?_, ?_⟩
  · intro k
    show (build A.length A 0 0 (A.length - 1) _).lazy_updates k = none
    rw [build_lazy]
  · show (build A.length A 0 0 (A.length - 1) _).size = 4 * A.length
    rw [build_size]

/-- C3: for every non-empty input array `A` of length `n`, `range_max(1, n)`
immediately after construction returns `max(A)` (the fold of `max` over `A`).  -/
theorem c3_build_range_max (A : List Nat) (h : 1 ≤ A.length) :
    (range_max_query_lazy (new A) 1 A.length).1 = A.foldr max 0 := by
  obtain ⟨h1, h2, h3, h4, h5⟩ := new_spec A h
  have hro : rangeOkB (new A).size (new A).ranges 0 0 (A.length - 1) = true := by
    rw [rangeOkB_fuel (new A).size A.length (new A).ranges 0 0 (A.length - 1)
      (by omega) (by omega : A.length - 1 - 0 < (new A).size) (by omega)]
    exact h1
  have hinv : invB (new A).size (new A) 0 0 (A.length - 1) = true := by
    rw [invB_fuel (new A).size A.length (new A) 0 0 (A.length - 1)
      (by omega) (by omega) (by omega)]
    exact h2
  have hq := rmq_spec (new A).size (new A) 0 0 (A.length - 1) 0 (A.length - 1)
    hro hinv (by omega) (by omega)
  show (range_max_query_lazy_recursive (new A).size (new A) 0 (1 - 1)
    (A.length - 1)).1 = A.foldr max 0
  rw [show (1 : Nat) - 1 = 0 from rfl, hq.1,
    windowMax_total (Nat.le_refl 0) (Nat.le_refl (A.length - 1))]
  have hmap : (winIdx 0 (A.length - 1)).map
      (logVal (new A).size (new A) 0 0 (A.length - 1) none) =
      (winIdx 0 (A.length - 1)).map (fun j => A.getD j 0) := by
    apply List.map_congr_left
    intro j hj
    obtain ⟨hj1, hj2⟩ := mem_winIdx.mp hj
    rw [logVal_fuel (new A).size A.length (new A) 0 0 (A.length - 1) none j
      (by omega) (by omega) (by omega)]
    exact h3 j hj2
  rw [hmap, winIdx_zero A.length h, map_getD_range]
  rfl

/-- Witness for C3 on the specification's own scenario array. -/
theorem c3_build_range_max_witness :
    1 ≤ ([5, 4, 3, 2, 9, 1, 7] : List Nat).length ∧
    (range_max_query_lazy (new [5, 4, 3, 2, 9, 1, 7]) 1
      ([5, 4, 3, 2, 9, 1, 7] : List Nat).length).1 =
      ([5, 4, 3, 2, 9, 1, 7] : List Nat).foldr max 0 :=
  ⟨by decide, c3_build_range_max [5, 4, 3, 2, 9, 1, 7] (by decide)⟩

/-- C6: on a well-formed state (the range bookkeeping of `build` and the lazy
invariant hold at the root, as they do in every reachable state),
`range_max(s, e)` may rewrite the internal lazy state but preserves the
logical value of every array position, and every subsequent `range_max`
query — point queries included — returns exactly what it would have returned
before the call. -/
theorem c6_query_preserves_state (st : MaxSegmentTree) (n s e : Nat)
    (hn : 1 ≤ n) (hs : n ≤ st.size)
    (hro : rangeOkB st.size st.ranges 0 0 (n - 1) = true)
    (hinv : invB st.size st 0 0 (n - 1) = true) :
    (∀ j, logVal st.size (range_max_query_lazy st s e).2 0 0 (n - 1) none j =
        logVal st.size st 0 0 (n - 1) none j) ∧
    (∀ s' e', (range_max_query_lazy (range_max_query_lazy st s e).2 s' e').1 =
        (range_max_query_lazy st s' e').1) := by
  have hq := rmq_spec st.size st 0 0 (n - 1) (s - 1) (e - 1) hro hinv
    (by omega) (by omega)
  obtain ⟨-, hpres, hinv', -⟩ := hq
  constructor
  · exact hpres
  · intro s' e'
    have hsz : (range_max_query_lazy st s e).2.size = st.size := rmq_size _ _ _ _ _
    have hrg : (range_max_query_lazy st s e).2.ranges = st.ranges := rmq_ranges _ _ _ _ _
    have hq2 := rmq_spec st.size (range_max_query_lazy st s e).2 0 0 (n - 1)
      (s' - 1) (e' - 1) (by rw [hrg]; exact hro) hinv' (by omega) (by omega)
    have hq3 := rmq_spec st.size st 0 0 (n - 1) (s' - 1) (e' - 1) hro hinv
      (by omega) (by omega)
    show (range_max_query_lazy_recursive (range_max_query_lazy st s e).2.size
      (range_max_query_lazy st s e).2 0 (s' - 1) (e' - 1)).1 =
      (range_max_query_lazy_recursive st.size st 0 (s' - 1) (e' - 1)).1
    rw [hsz, hq2.1, hq3.1]
    exact windowMax_congr _ _ _ _ (fun j hj1 hj2 => hpres j)

/-- Witness for C6 on a concrete freshly built state. -/
theorem c6_query_preserves_state_witness :
    1 ≤ 2 ∧ 2 ≤ (new [5, 4]).size ∧
    rangeOkB (new [5, 4]).size (new [5, 4]).ranges 0 0 (2 - 1) = true ∧
    invB (new [5, 4]).size (new [5, 4]) 0 0 (2 - 1) = true ∧
    ((∀ j, logVal (new [5, 4]).size (range_max_query_lazy (new [5, 4]) 1 2).2 0 0
        (2 - 1) none j =
        logVal (new [5, 4]).size (new [5, 4]) 0 0 (2 - 1) none j) ∧
     (∀ s' e',
        (range_max_query_lazy (range_max_query_lazy (new [5, 4]) 1 2).2 s' e').1 =
        (range_max_query_lazy (new [5, 4]) s' e').1)) :=
  ⟨by decide, by decide, by decide, by decide,
    c6_query_preserves_state (new [5, 4]) 2 1 2 (by decide) (by decide) (by decide)
      (by decide)⟩

end MaxSegmentTree

/-! ## Specification of the lazy range update -/

namespace MaxSegmentTree

theorem logVal_le_lazy {f : Nat} {st : MaxSegmentTree} {i s e j u : Nat}
    (hu : st.lazy_updates i = some u) :
    logVal (f + 1) st i s e none j ≤ u := by
  simp only [logVal, hu, mergeO_none_left]
  split
  · exact clampOf_le_const _ _
  · split
    · rw [logVal_acc]
      exact clampOf_le_const _ _
    · rw [logVal_acc]
      exact clampOf_le_const _ _

theorem rur_spec : ∀ (f : Nat) (st : MaxSegmentTree) (i s e qs qe v : Nat),
    rangeOkB f st.ranges i s e = true → invB f st i s e = true → s ≤ e → e - s < f →
    (range_update_recursive f st i qs qe v).lazy_updates i = none ∧
    invB f (range_update_recursive f st i qs qe v) i s e = true ∧
    (∀ j, s ≤ j → j ≤ e →
      logVal f (range_update_recursive f st i qs qe v) i s e none j =
        if qs ≤ j ∧ j ≤ qe then min (logVal f st i s e none j) v
        else logVal f st i s e none j) := by
  intro f
  induction f with
  | zero => intro st i s e qs qe v hro hinv hse hf; omega
  | succ f ih =>
    intro st i s e qs qe v hro hinv hse hf
    have hr : st.ranges i = (s, e) := rangeOkB_self hro
    by_cases h1 : qs ≤ s ∧ e ≤ qe
    · -- Total overlap
      simp only [rur_succ_total hr h1]
      set P := handle_pending_update st i v s e with hP
      have hP1 : P.1 = clampOf (st.lazy_updates i) v := by rw [hP, hp_fst]
      have hPlz : P.2.lazy_updates i = none := by rw [hP, hp_lazy_self]
      have hPt : P.2.tree i = eff st i := by rw [hP, hp_tree_self]
      have hPinv : invB (f + 1) P.2 i s e = true := by
        rw [hP]
        exact hp_invB (f + 1) st i s e v hse hinv
      have hPlog : ∀ j, logVal (f + 1) P.2 i s e none j =
          logVal (f + 1) st i s e none j := by
        intro j
        rw [hP]
        exact hp_logVal (f + 1) st i s e v none j hse
      set A := setTree P.2 i (min (P.2.tree i) P.1) with hA
      have hAlz : A.lazy_updates = P.2.lazy_updates := by rw [hA, setTree_lazy]
      have hAti : A.tree i = min (P.2.tree i) P.1 := by rw [hA, setTree_tree_self]
      refine ⟨?_, ?_, ?_⟩
      · rw [plu_lazy_ne _ _ _ _ (by omega) (by omega), hAlz, hPlz]
      · by_cases he : s = e
        · subst he
          exact invB_leaf f _ i s
        · have hlt : s < e := by omega
          obtain ⟨hPti, hPivL, hPivR⟩ := invB_parts hPinv he
          apply invB_assemble he
          · have ht : (propagate_lazy_update A i P.1 s e).tree i = min (P.2.tree i) P.1 := by
              rw [show (propagate_lazy_update A i P.1 s e).tree = _ from
                plu_tree _ _ _ _ _, hAti]
            have hel : eff (propagate_lazy_update A i P.1 s e) (get_left_child i) =
                min P.1 (eff P.2 (get_left_child i)) := by
              rw [eff,
                show (propagate_lazy_update A i P.1 s e).lazy_updates (get_left_child i) =
                    mergeO (some P.1) (A.lazy_updates (get_left_child i)) from
                  by simpa only [get_left_child] using plu_lazy_left A i P.1 hlt,
                show (propagate_lazy_update A i P.1 s e).tree = _ from
                  plu_tree _ _ _ _ _,
                hAlz, hA, setTree_tree,
                if_neg (show get_left_child i ≠ i by simp only [get_left_child]; omega),
                clampOf_mergeO, clampOf_some]
              rfl
            have her : eff (propagate_lazy_update A i P.1 s e) (get_right_child i) =
                min P.1 (eff P.2 (get_right_child i)) := by
              rw [eff,
                show (propagate_lazy_update A i P.1 s e).lazy_updates (get_right_child i) =
                    mergeO (some P.1) (A.lazy_updates (get_right_child i)) from
                  by simpa only [get_right_child] using plu_lazy_right A i P.1 hlt,
                show (propagate_lazy_update A i P.1 s e).tree = _ from
                  plu_tree _ _ _ _ _,
                hAlz, hA, setTree_tree,
                if_neg (show get_right_child i ≠ i by simp only [get_right_child]; omega),
                clampOf_mergeO, clampOf_some]
              rfl
            rw [ht, hel, her, hPti, Nat.min_comm, min_max_distrib_left]
          · rw [invB_congr f (propagate_lazy_update A i P.1 s e) P.2 (get_left_child i) _ _
              (fun k hk => by
                have hki : k ≠ i := by
                  have := hk.le
                  simp only [get_left_child] at this
                  omega
                rw [show (propagate_lazy_update A i P.1 s e).tree = _ from
                  plu_tree _ _ _ _ _, hA, setTree_tree, if_neg hki])
              (fun k hk hne => by
                have hk1 := hk.le
                have hk2 := hk.proper_ge hne
                simp only [get_left_child] at hk1 hk2
                rw [plu_lazy_ne _ _ _ _ (by omega) (by omega), hAlz])]
            exact hPivL
          · rw [invB_congr f (propagate_lazy_update A i P.1 s e) P.2 (get_right_child i) _ _
              (fun k hk => by
                have hki : k ≠ i := by
                  have := hk.le
                  simp only [get_right_child] at this
                  omega
                rw [show (propagate_lazy_update A i P.1 s e).tree = _ from
                  plu_tree _ _ _ _ _, hA, setTree_tree, if_neg hki])
              (fun k hk hne => by
                have hk1 := hk.le
                have hk2 := hk.proper_ge hne
                simp only [get_right_child] at hk1 hk2
                rw [plu_lazy_ne _ _ _ _ (by omega) (by omega), hAlz])]
            exact hPivR
      · intro j hj1 hj2
        rw [if_pos (show qs ≤ j ∧ j ≤ qe by omega)]
        by_cases he : s = e
        · subst he
          have hj : j = s := by omega
          subst hj
          rw [plu_leaf _ _ _ _ _ (by omega)]
          have hLHS : logVal (f + 1) A i j j none j = min (eff st i) P.1 := by
            simp only [logVal, if_pos rfl]
            rw [show A.lazy_updates i = none from by rw [hAlz, hPlz],
              mergeO_none_right, hAti, hPt]
            rfl
          have hRHS : logVal (f + 1) st i j j none j = eff st i := by
            simp only [logVal, if_pos rfl, mergeO_none_left]
            rfl
          rw [hLHS, hRHS, hP1]
          cases hu : st.lazy_updates i with
          | none => rfl
          | some u =>
            rw [clampOf_some, eff, hu, clampOf_some]
            omega
        · have hlt : s < e := by omega
          have hTlz : (propagate_lazy_update A i P.1 s e).lazy_updates i = none := by
            rw [plu_lazy_ne _ _ _ _ (by omega) (by omega), hAlz, hPlz]
          rw [logVal_step he hTlz]
          have key : ∀ ch s' e', 2 * i + 1 ≤ ch → ch ≤ 2 * i + 2 →
              (propagate_lazy_update A i P.1 s e).lazy_updates ch =
                mergeO (some P.1) (P.2.lazy_updates ch) →
              logVal f (propagate_lazy_update A i P.1 s e) ch s' e' none j =
                min P.1 (logVal f P.2 ch s' e' none j) := by
            intro ch s' e' hge hle hch
            have hcongr : EqOn (propagate_lazy_update A i P.1 s e)
                (setLazy P.2 ch (mergeO (some P.1) (P.2.lazy_updates ch))) ch := by
              intro k hk
              have hki : k ≠ i := by
                have := hk.le
                omega
              constructor
              · rw [show (propagate_lazy_update A i P.1 s e).tree = _ from
                  plu_tree _ _ _ _ _, hA, setTree_tree, if_neg hki, setLazy_tree]
              · by_cases hkc : k = ch
                · subst hkc
                  rw [hch, setLazy_lazy_self]
                · have hk2 : 2 * ch + 1 ≤ k := hk.proper_ge hkc
                  rw [plu_lazy_ne _ _ _ _ (by omega) (by omega), hAlz, setLazy_lazy,
                    if_neg hkc]
            rw [logVal_congr f _ _ ch s' e' none j hcongr, logVal_push, mergeO_none_left,
              logVal_acc, clampOf_some]
          have hrel : ∀ X, logVal (f + 1) st i s e none j = X →
              logVal (f + 1) P.2 i s e none j = X := by
            intro X hX
            rw [hPlog j, hX]
          by_cases hj : j ≤ (s + e) / 2
          · rw [if_pos hj,
              key (get_left_child i) s ((s + e) / 2)
                (by simp only [get_left_child]; omega)
                (by simp only [get_left_child]; omega)
                (by rw [← hAlz]
                    simpa only [get_left_child] using plu_lazy_left A i P.1 hlt)]
            have hstep : logVal f P.2 (get_left_child i) s ((s + e) / 2) none j =
                logVal (f + 1) st i s e none j := by
              rw [← hPlog j, logVal_step he hPlz, if_pos hj]
            rw [hstep]
            cases hu : st.lazy_updates i with
            | none =>
              rw [hP1, hu]
              simp [clampOf, Nat.min_comm]
            | some u =>
              have hle := logVal_le_lazy (f := f) (s := s) (e := e) (j := j) hu
              rw [hP1, hu, clampOf_some]
              omega
          · rw [if_neg hj,
              key (get_right_child i) ((s + e) / 2 + 1) e
                (by simp only [get_right_child]; omega)
                (by simp only [get_right_child]; omega)
                (by rw [← hAlz]
                    simpa only [get_right_child] using plu_lazy_right A i P.1 hlt)]
            have hstep : logVal f P.2 (get_right_child i) ((s + e) / 2 + 1) e none j =
                logVal (f + 1) st i s e none j := by
              rw [← hPlog j, logVal_step he hPlz, if_neg hj]
            rw [hstep]
            cases hu : st.lazy_updates i with
            | none =>
              rw [hP1, hu]
              simp [clampOf, Nat.min_comm]
            | some u =>
              have hle := logVal_le_lazy (f := f) (s := s) (e := e) (j := j) hu
              rw [hP1, hu, clampOf_some]
              omega
    · by_cases h2 : qe < s ∨ e < qs
      · -- No overlap
        simp only [rur_succ_none hr h1 h2]
        refine ⟨hp_lazy_self st i u32MAX s e, hp_invB (f + 1) st i s e u32MAX hse hinv, ?_⟩
        intro j hj1 hj2
        rw [if_neg (by omega)]
        exact hp_logVal (f + 1) st i s e u32MAX none j hse
      · -- Partial overlap
        have he : s ≠ e := by omega
        have hlt : s < e := by omega
        have hm1 : s ≤ (s + e) / 2 := mid_ge hse
        have hm2 : (s + e) / 2 < e := mid_lt hlt
        simp only [rur_succ_part hr h1 h2]
        obtain ⟨hroL, hroR⟩ := rangeOkB_children hro he
        set P := handle_pending_update st i v s e with hP
        have hP1 : P.1 = clampOf (st.lazy_updates i) v := by rw [hP, hp_fst]
        have hPlz : P.2.lazy_updates i = none := by rw [hP, hp_lazy_self]
        have hPro : P.2.ranges = st.ranges := by rw [hP, hp_ranges]
        have hPinv : invB (f + 1) P.2 i s e = true := by
          rw [hP]
          exact hp_invB (f + 1) st i s e v hse hinv
        obtain ⟨hPti, hPivL, hPivR⟩ := invB_parts hPinv he
        have hPlog : ∀ j, logVal (f + 1) P.2 i s e none j =
            logVal (f + 1) st i s e none j := by
          intro j
          rw [hP]
          exact hp_logVal (f + 1) st i s e v none j hse
        have IHl := ih P.2 (get_left_child i) s ((s + e) / 2) qs (min ((s + e) / 2) qe) P.1
          (by rw [hPro]; exact hroL) hPivL (by omega) (by omega)
        set st2 := range_update_recursive f P.2 (get_left_child i) qs
          (min ((s + e) / 2) qe) P.1 with hst2
        obtain ⟨IHl1, IHl2, IHl3⟩ := IHl
        have hst2fr : ∀ k, ¬ Descendant (get_left_child i) k →
            st2.tree k = P.2.tree k ∧ st2.lazy_updates k = P.2.lazy_updates k := by
          intro k hk
          rw [hst2]
          exact rur_frame f P.2 (get_left_child i) _ _ _ k hk
        have hst2ro : st2.ranges = st.ranges := by rw [hst2, rur_ranges, hPro]
        have hEqR : EqOn st2 P.2 (get_right_child i) := EqOn_sibling_right hst2fr
        have hst2ivR : invB f st2 (get_right_child i) ((s + e) / 2 + 1) e = true := by
          rw [invB_congr f st2 P.2 (get_right_child i) _ _
            (fun k hk => (hEqR k hk).1) (fun k hk _ => (hEqR k hk).2)]
          exact hPivR
        have IHr := ih st2 (get_right_child i) ((s + e) / 2 + 1) e
          (max ((s + e) / 2 + 1) qs) qe P.1
          (by rw [hst2ro]; exact hroR) hst2ivR (by omega) (by omega)
        set st3 := range_update_recursive f st2 (get_right_child i)
          (max ((s + e) / 2 + 1) qs) qe P.1 with hst3
        obtain ⟨IHr1, IHr2, IHr3⟩ := IHr
        have hst3fr : ∀ k, ¬ Descendant (get_right_child i) k →
            st3.tree k = st2.tree k ∧ st3.lazy_updates k = st2.lazy_updates k := by
          intro k hk
          rw [hst3]
          exact rur_frame f st2 (get_right_child i) _ _ _ k hk
        have hEqL : EqOn st3 st2 (get_left_child i) := EqOn_sibling_left hst3fr
        have hFlz : (setTree st3 i (max (st3.tree (get_left_child i))
            (st3.tree (get_right_child i)))).lazy_updates i = none := by
          rw [setTree_lazy,
            (hst3fr i (by simpa only [get_right_child] using
              not_descendant_right_self i)).2,
            (hst2fr i (by simpa only [get_left_child] using
              not_descendant_left_self i)).2, hPlz]
        have hEqFL : EqOn (setTree st3 i (max (st3.tree (get_left_child i))
            (st3.tree (get_right_child i)))) st3 (get_left_child i) := by
          intro k hk
          have hki : k ≠ i := by
            have := hk.le
            simp only [get_left_child] at this
            omega
          exact ⟨by rw [setTree_tree, if_neg hki], by rw [setTree_lazy]⟩
        have hEqFR : EqOn (setTree st3 i (max (st3.tree (get_left_child i))
            (st3.tree (get_right_child i)))) st3 (get_right_child i) := by
          intro k hk
          have hki : k ≠ i := by
            have := hk.le
            simp only [get_right_child] at this
            omega
          exact ⟨by rw [setTree_tree, if_neg hki], by rw [setTree_lazy]⟩
        refine ⟨hFlz, ?_, ?_⟩
        · apply invB_assemble he
          · have h1' : (setTree st3 i (max (st3.tree (get_left_child i))
                (st3.tree (get_right_child i)))).tree i =
                max (st3.tree (get_left_child i)) (st3.tree (get_right_child i)) :=
              setTree_tree_self _ _ _
            have h2' : eff (setTree st3 i (max (st3.tree (get_left_child i))
                (st3.tree (get_right_child i)))) (get_left_child i) =
                st3.tree (get_left_child i) := by
              rw [eff, (hEqFL _ (Descendant.refl _)).2, (hEqFL _ (Descendant.refl _)).1,
                (hEqL _ (Descendant.refl _)).2, IHl1]
              rfl
            have h3' : eff (setTree st3 i (max (st3.tree (get_left_child i))
                (st3.tree (get_right_child i)))) (get_right_child i) =
                st3.tree (get_right_child i) := by
              rw [eff, (hEqFR _ (Descendant.refl _)).2, (hEqFR _ (Descendant.refl _)).1,
                IHr1]
              rfl
            rw [h1', h2', h3']
          · rw [invB_congr f _ st2 (get_left_child i) _ _
              (fun k hk => ((hEqFL k hk).1).trans ((hEqL k hk).1))
              (fun k hk _ => ((hEqFL k hk).2).trans ((hEqL k hk).2))]
            exact IHl2
          · rw [invB_congr f _ st3 (get_right_child i) _ _
              (fun k hk => (hEqFR k hk).1) (fun k hk _ => (hEqFR k hk).2)]
            exact IHr2
        · intro j hj1 hj2
          rw [logVal_step he hFlz]
          by_cases hj : j ≤ (s + e) / 2
          · rw [if_pos hj,
              logVal_congr f _ st3 (get_left_child i) _ _ none j hEqFL,
              logVal_congr f st3 st2 (get_left_child i) _ _ none j hEqL,
              IHl3 j hj1 hj]
            have hstep : logVal f P.2 (get_left_child i) s ((s + e) / 2) none j =
                logVal (f + 1) st i s e none j := by
              rw [← hPlog j, logVal_step he hPlz, if_pos hj]
            by_cases hw : qs ≤ j ∧ j ≤ qe
            · rw [if_pos (by omega : qs ≤ j ∧ j ≤ min ((s + e) / 2) qe), if_pos hw, hstep]
              cases hu : st.lazy_updates i with
              | none =>
                rw [hP1, hu]
                rfl
              | some u =>
                have hle := logVal_le_lazy (f := f) (s := s) (e := e) (j := j) hu
                rw [hP1, hu, clampOf_some]
                omega
            · rw [if_neg (by omega : ¬ (qs ≤ j ∧ j ≤ min ((s + e) / 2) qe)), if_neg hw,
                hstep]
          · rw [if_neg hj,
              logVal_congr f _ st3 (get_right_child i) _ _ none j hEqFR,
              IHr3 j (by omega) hj2,
              logVal_congr f st2 P.2 (get_right_child i) _ _ none j hEqR]
            have hstep : logVal f P.2 (get_right_child i) ((s + e) / 2 + 1) e none j =
                logVal (f + 1) st i s e none j := by
              rw [← hPlog j, logVal_step he hPlz, if_neg hj]
            by_cases hw : qs ≤ j ∧ j ≤ qe
            · rw [if_pos (by omega : max ((s + e) / 2 + 1) qs ≤ j ∧ j ≤ qe), if_pos hw,
                hstep]
              cases hu : st.lazy_updates i with
              | none =>
                rw [hP1, hu]
                rfl
              | some u =>
                have hle := logVal_le_lazy (f := f) (s := s) (e := e) (j := j) hu
                rw [hP1, hu, clampOf_some]
                omega
            · rw [if_neg (by omega : ¬ (max ((s + e) / 2 + 1) qs ≤ j ∧ j ≤ qe)),
                if_neg hw, hstep]

end MaxSegmentTree

/-! ## Point queries after arbitrary clamp sequences -/

namespace MaxSegmentTree

theorem applyOps_nil (st : MaxSegmentTree) : applyOps st [] = st := rfl

theorem applyOps_cons (st : MaxSegmentTree) (op : Nat × Nat × Nat)
    (ops : List (Nat × Nat × Nat)) :
    applyOps st (op :: ops) = applyOps (range_update st op.1 op.2.1 op.2.2) ops := rfl

theorem clampFold_nil (i x : Nat) : clampFold [] i x = x := rfl

theorem clampFold_cons (op : Nat × Nat × Nat) (ops : List (Nat × Nat × Nat)) (i x : Nat) :
    clampFold (op :: ops) i x =
      clampFold ops i (if op.1 ≤ i ∧ i ≤ op.2.1 then min x op.2.2 else x) := rfl

theorem c1_aux : ∀ (ops : List (Nat × Nat × Nat)) (st : MaxSegmentTree) (n : Nat)
    (g : Nat → Nat), 1 ≤ n → n ≤ st.size →
    rangeOkB st.size st.ranges 0 0 (n - 1) = true →
    invB st.size st 0 0 (n - 1) = true →
    (∀ j, j ≤ n - 1 → logVal st.size st 0 0 (n - 1) none j = g j) →
    opsValidB n ops = true →
    (applyOps st ops).size = st.size ∧
    rangeOkB st.size (applyOps st ops).ranges 0 0 (n - 1) = true ∧
    invB st.size (applyOps st ops) 0 0 (n - 1) = true ∧
    (∀ j, j ≤ n - 1 →
      logVal st.size (applyOps st ops) 0 0 (n - 1) none j = clampFold ops (j + 1) (g j)) := by
  intro ops
  induction ops with
  | nil =>
    intro st n g hn hsz hro hinv hvals hops
    exact ⟨rfl, hro, hinv, fun j hj => hvals j hj⟩
  | cons op rest ih =>
    intro st n g hn hsz hro hinv hvals hops
    have h' : ((decide (1 ≤ op.1) && decide (op.1 ≤ op.2.1) && decide (op.2.1 ≤ n)) &&
        opsValidB n rest) = true := hops
    rw [Bool.and_eq_true] at h'
    obtain ⟨hophead, hrest⟩ := h'
    rw [Bool.and_eq_true, Bool.and_eq_true] at hophead
    simp only [decide_eq_true_eq] at hophead
    have hopv : 1 ≤ op.1 ∧ op.1 ≤ op.2.1 ∧ op.2.1 ≤ n :=
      ⟨hophead.1.1, hophead.1.2, hophead.2⟩
    have hup := rur_spec st.size st 0 0 (n - 1) (op.1 - 1) (op.2.1 - 1) op.2.2
      hro hinv (by omega) (by omega)
    obtain ⟨-, hinv1, hvals1⟩ := hup
    rw [applyOps_cons]
    have hsz1 : (range_update st op.1 op.2.1 op.2.2).size = st.size :=
      rur_size _ _ _ _ _ _
    have hro1 : rangeOkB st.size (range_update st op.1 op.2.1 op.2.2).ranges
        0 0 (n - 1) = true := by
      show rangeOkB st.size (range_update_recursive st.size st 0 (op.1 - 1)
        (op.2.1 - 1) op.2.2).ranges 0 0 (n - 1) = true
      rw [rur_ranges]
      exact hro
    have ihres := ih (range_update st op.1 op.2.1 op.2.2) n
      (fun j => if op.1 ≤ j + 1 ∧ j + 1 ≤ op.2.1 then min (g j) op.2.2 else g j)
      hn (by omega) (by rw [hsz1]; exact hro1) (by rw [hsz1]; exact hinv1)
      (by
        intro j hj
        rw [hsz1]
        have := hvals1 j (by omega) hj
        rw [show logVal st.size (range_update_recursive st.size st 0 (op.1 - 1)
            (op.2.1 - 1) op.2.2) 0 0 (n - 1) none j =
          logVal st.size (range_update st op.1 op.2.1 op.2.2) 0 0 (n - 1) none j
          from rfl] at this
        rw [this, hvals j hj]
        simp only []
        by_cases hw : op.1 - 1 ≤ j ∧ j ≤ op.2.1 - 1
        · rw [if_pos hw, if_pos (show op.1 ≤ j + 1 ∧ j + 1 ≤ op.2.1 by omega)]
        · rw [if_neg hw, if_neg (show ¬ (op.1 ≤ j + 1 ∧ j + 1 ≤ op.2.1) by omega)])
      hrest
    obtain ⟨ih1, ih2, ih3, ih4⟩ := ihres
    rw [hsz1] at ih1 ih2 ih3 ih4
    refine ⟨by rw [ih1], ih2, ih3, ?_⟩
    intro j hj
    rw [ih4 j hj, clampFold_cons]

/-- C1: for every initial array, every sequence of valid 1-based clamp
operations, and every 1-based index `i`, the point query `range_max(i, i)`
returns the fold of `min` over the values of the operations covering `i`,
starting from the original `A[i]`. -/
theorem c1_point_query (A : List Nat) (ops : List (Nat × Nat × Nat)) (i : Nat)
    (hA : 1 ≤ A.length) (hi1 : 1 ≤ i) (hi2 : i ≤ A.length)
    (hops : opsValidB A.length ops = true) :
    (range_max_query_lazy (applyOps (new A) ops) i i).1 =
      clampFold ops i (A.getD (i - 1) 0) := by
  obtain ⟨h1, h2, h3, h4, h5⟩ := new_spec A hA
  have hro : rangeOkB (new A).size (new A).ranges 0 0 (A.length - 1) = true := by
    rw [rangeOkB_fuel (new A).size A.length (new A).ranges 0 0 (A.length - 1)
      (by omega) (by omega) (by omega)]
    exact h1
  have hinv : invB (new A).size (new A) 0 0 (A.length - 1) = true := by
    rw [invB_fuel (new A).size A.length (new A) 0 0 (A.length - 1)
      (by omega) (by omega) (by omega)]
    exact h2
  have hvals : ∀ j, j ≤ A.length - 1 →
      logVal (new A).size (new A) 0 0 (A.length - 1) none j = A.getD j 0 := by
    intro j hj
    rw [logVal_fuel (new A).size A.length (new A) 0 0 (A.length - 1) none j
      (by omega) (by omega) (by omega)]
    exact h3 j hj
  have haux := c1_aux ops (new A) A.length (fun j => A.getD j 0) hA (by omega)
    hro hinv hvals hops
  obtain ⟨ha1, ha2, ha3, ha4⟩ := haux
  have hq := rmq_spec (new A).size (applyOps (new A) ops) 0 0 (A.length - 1)
    (i - 1) (i - 1) ha2 ha3 (by omega) (by omega)
  show (range_max_query_lazy_recursive (applyOps (new A) ops).size
    (applyOps (new A) ops) 0 (i - 1) (i - 1)).1 = clampFold ops i (A.getD (i - 1) 0)
  rw [ha1, hq.1,
    windowMax_single (show max 0 (i - 1) = i - 1 by omega)
      (show min (A.length - 1) (i - 1) = i - 1 by omega),
    ha4 (i - 1) (by omega)]
  congr 1
  omega

/-- Witness for C1: `A = [19, 23, 17, 14, 9, 11, 7]` with the spec's scenario
clamps `(1, 4, 22)` and `(3, 5, 15)`, queried at index `4`. -/
theorem c1_point_query_witness :
    1 ≤ ([19, 23, 17, 14, 9, 11, 7] : List Nat).length ∧ 1 ≤ 4 ∧
    4 ≤ ([19, 23, 17, 14, 9, 11, 7] : List Nat).length ∧
    opsValidB ([19, 23, 17, 14, 9, 11, 7] : List Nat).length
      [(1, 4, 22), (3, 5, 15)] = true ∧
    (range_max_query_lazy
      (applyOps (new [19, 23, 17, 14, 9, 11, 7]) [(1, 4, 22), (3, 5, 15)]) 4 4).1 =
      clampFold [(1, 4, 22), (3, 5, 15)] 4
        (([19, 23, 17, 14, 9, 11, 7] : List Nat).getD (4 - 1) 0) :=
  ⟨by decide, by decide, by decide, by decide,
    c1_point_query [19, 23, 17, 14, 9, 11, 7] [(1, 4, 22), (3, 5, 15)] 4
      (by decide) (by decide) (by decide) (by decide)⟩

end MaxSegmentTree

/-! ## C2: existence query on a fully pushed tree -/

namespace MaxSegmentTree

theorem clampOf_none (x : Nat) : clampOf none x = x := rfl

theorem eff_of_none {st : MaxSegmentTree} {i : Nat}
    (h : st.lazy_updates i = none) : eff st i = st.tree i := by
  simp only [eff, h, clampOf]

theorem noLazyB_self {f : Nat} {st : MaxSegmentTree} {i s e : Nat}
    (h : noLazyB f st i s e = true) : st.lazy_updates i = none := by
  cases f with
  | zero => exact absurd h (by simp [noLazyB])
  | succ f =>
    simp only [noLazyB, Bool.and_eq_true, beq_iff_eq] at h
    exact h.1

theorem noLazyB_children {f : Nat} {st : MaxSegmentTree} {i s e : Nat}
    (h : noLazyB (f + 1) st i s e = true) (he : s ≠ e) :
    noLazyB f st (get_left_child i) s ((s + e) / 2) = true ∧
    noLazyB f st (get_right_child i) ((s + e) / 2 + 1) e = true := by
  simp only [noLazyB, Bool.and_eq_true, beq_iff_eq] at h
  rcases h with ⟨-, h2⟩
  rw [if_neg he] at h2
  exact (Bool.and_eq_true _ _).mp h2

theorem cto_spec : ∀ (f : Nat) (st : MaxSegmentTree) (i s e k : Nat),
    invB f st i s e = true → noLazyB f st i s e = true → s ≤ e → e - s < f →
    (1 ≤ check_total_overlap f st i s e k ↔
      ∃ j, s ≤ j ∧ j ≤ e ∧ logVal f st i s e none j = k) := by
  intro f
  induction f with
  | zero => intro st i s e k hinv hnl hse hf; omega
  | succ f ih =>
    intro st i s e k hinv hnl hse hf
    have hlz : st.lazy_updates i = none := noLazyB_self hnl
    have hroot : clampOf none (eff st i) = st.tree i := by
      rw [clampOf_none, eff_of_none hlz]
    by_cases he : s = e
    · subst he
      have hval : logVal (f + 1) st i s s none s = st.tree i := by
        simp only [logVal, if_pos rfl, hlz]
        rfl
      simp only [check_total_overlap, eq_self_iff_true, if_true]
      by_cases ht : st.tree i = k
      · rw [if_pos ht]
        exact iff_of_true (by omega) ⟨s, le_refl s, le_refl s, hval.trans ht⟩
      · rw [if_neg ht]
        constructor
        · intro h0; omega
        · rintro ⟨j, hj1, hj2, hjk⟩
          have hjs : j = s := by omega
          subst hjs
          exact absurd (hval.symm.trans hjk) ht
    · have hlt : s < e := by omega
      obtain ⟨ht, hil, hir⟩ := invB_parts hinv he
      obtain ⟨hnll, hnlr⟩ := noLazyB_children hnl he
      have hm1 : s ≤ (s + e) / 2 := mid_ge hse
      have hm2 : (s + e) / 2 < e := mid_lt hlt
      by_cases htlt : st.tree i < k
      · simp only [check_total_overlap, if_neg he, if_pos htlt]
        constructor
        · intro h0; omega
        · rintro ⟨j, hj1, hj2, hjk⟩
          have hle := logVal_le (f + 1) st i s e none j hse hf hinv hj1 hj2
          rw [hjk, hroot] at hle
          omega
      · by_cases hteq : st.tree i = k
        · simp only [check_total_overlap, if_neg he, if_neg htlt, if_pos hteq]
          refine iff_of_true (by omega) ?_
          obtain ⟨j, hj1, hj2, hj3⟩ := logVal_attained (f + 1) st i s e none hse hf hinv
          exact ⟨j, hj1, hj2, by rw [hj3, hroot, hteq]⟩
        · simp only [check_total_overlap, if_neg he, if_neg htlt, if_neg hteq]
          have ihl := ih st (get_left_child i) s ((s + e) / 2) k hil hnll
            (by omega) (by omega)
          have ihr := ih st (get_right_child i) ((s + e) / 2 + 1) e k hir hnlr
            (by omega) (by omega)
          constructor
          · intro hsum
            rcases (show
                1 ≤ check_total_overlap f st (get_left_child i) s ((s + e) / 2) k ∨
                1 ≤ check_total_overlap f st (get_right_child i) ((s + e) / 2 + 1) e k
                by omega) with hL | hR
            · obtain ⟨j, hj1, hj2, hjk⟩ := ihl.mp hL
              refine ⟨j, by omega, by omega, ?_⟩
              rw [logVal_step he hlz, if_pos (show j ≤ (s + e) / 2 by omega)]
              exact hjk
            · obtain ⟨j, hj1, hj2, hjk⟩ := ihr.mp hR
              refine ⟨j, by omega, by omega, ?_⟩
              rw [logVal_step he hlz, if_neg (show ¬ j ≤ (s + e) / 2 by omega)]
              exact hjk
          · rintro ⟨j, hj1, hj2, hjk⟩
            rw [logVal_step he hlz] at hjk
            by_cases hjm : j ≤ (s + e) / 2
            · rw [if_pos hjm] at hjk
              have hL := ihl.mpr ⟨j, by omega, by omega, hjk⟩
              omega
            · rw [if_neg hjm] at hjk
              have hR := ihr.mpr ⟨j, by omega, by omega, hjk⟩
              omega

end MaxSegmentTree

namespace MaxSegmentTree

theorem ist_succ_total {f : Nat} {st : MaxSegmentTree} {i qs qe k s e : Nat}
    (hr : st.ranges i = (s, e)) (h : qs ≤ s ∧ e ≤ qe) :
    is_there_recursive (f + 1) st i qs qe k =
      if st.tree i < k then 0 else check_total_overlap (f + 1) st i s e k := by
  simp only [is_there_recursive, hr, if_pos h]

theorem ist_succ_none {f : Nat} {st : MaxSegmentTree} {i qs qe k s e : Nat}
    (hr : st.ranges i = (s, e)) (h1 : ¬ (qs ≤ s ∧ e ≤ qe)) (h2 : qe < s ∨ e < qs) :
    is_there_recursive (f + 1) st i qs qe k = 0 := by
  simp only [is_there_recursive, hr, if_neg h1, if_pos h2]

theorem ist_succ_part {f : Nat} {st : MaxSegmentTree} {i qs qe k s e : Nat}
    (hr : st.ranges i = (s, e)) (h1 : ¬ (qs ≤ s ∧ e ≤ qe)) (h2 : ¬ (qe < s ∨ e < qs)) :
    is_there_recursive (f + 1) st i qs qe k =
      is_there_recursive f st (get_left_child i) qs (min ((e + s) / 2) qe) k +
      is_there_recursive f st (get_right_child i) (max ((e + s) / 2 + 1) qs) qe k := by
  simp only [is_there_recursive, hr, if_neg h1, if_neg h2]

theorem is_there_rec_spec : ∀ (f : Nat) (st : MaxSegmentTree) (i s e qs qe k : Nat),
    rangeOkB f st.ranges i s e = true → invB f st i s e = true →
    noLazyB f st i s e = true → s ≤ e → e - s < f →
    (1 ≤ is_there_recursive f st i qs qe k ↔
      ∃ j, max s qs ≤ j ∧ j ≤ min e qe ∧ logVal f st i s e none j = k) := by
  intro f
  induction f with
  | zero => intro st i s e qs qe k hro hinv hnl hse hf; omega
  | succ f ih =>
    intro st i s e qs qe k hro hinv hnl hse hf
    have hr : st.ranges i = (s, e) := rangeOkB_self hro
    have hlz : st.lazy_updates i = none := noLazyB_self hnl
    by_cases h1 : qs ≤ s ∧ e ≤ qe
    · rw [ist_succ_total hr h1]
      have hms : max s qs = s := by omega
      have hme : min e qe = e := by omega
      rw [hms, hme]
      by_cases htlt : st.tree i < k
      · rw [if_pos htlt]
        constructor
        · intro h0
          exact absurd h0 (by omega)
        · rintro ⟨j, hj1, hj2, hjk⟩
          have hle := logVal_le (f + 1) st i s e none j hse hf hinv hj1 hj2
          rw [hjk, clampOf_none, eff_of_none hlz] at hle
          omega
      · rw [if_neg htlt]
        exact cto_spec (f + 1) st i s e k hinv hnl hse hf
    · by_cases h2 : qe < s ∨ e < qs
      · rw [ist_succ_none hr h1 h2]
        constructor
        · intro h0
          exact absurd h0 (by omega)
        · rintro ⟨j, hj1, hj2, -⟩
          omega
      · rw [ist_succ_part hr h1 h2]
        have he : s ≠ e := by omega
        have hcm : (e + s) / 2 = (s + e) / 2 := by omega
        rw [hcm]
        obtain ⟨ht, hil, hir⟩ := invB_parts hinv he
        obtain ⟨hnll, hnlr⟩ := noLazyB_children hnl he
        obtain ⟨hrol, hror⟩ := rangeOkB_children hro he
        have hm1 : s ≤ (s + e) / 2 := mid_ge hse
        have hm2 : (s + e) / 2 < e := mid_lt (by omega)
        have ihl := ih st (get_left_child i) s ((s + e) / 2) qs (min ((s + e) / 2) qe) k
          hrol hil hnll (by omega) (by omega)
        have ihr := ih st (get_right_child i) ((s + e) / 2 + 1) e
          (max ((s + e) / 2 + 1) qs) qe k hror hir hnlr (by omega) (by omega)
        constructor
        · intro hsum
          rcases (show
              1 ≤ is_there_recursive f st (get_left_child i) qs
                (min ((s + e) / 2) qe) k ∨
              1 ≤ is_there_recursive f st (get_right_child i)
                (max ((s + e) / 2 + 1) qs) qe k by omega) with hL | hR
          · obtain ⟨j, hj1, hj2, hjk⟩ := ihl.mp hL
            refine ⟨j, by omega, by omega, ?_⟩
            rw [logVal_step he hlz, if_pos (show j ≤ (s + e) / 2 by omega)]
            exact hjk
          · obtain ⟨j, hj1, hj2, hjk⟩ := ihr.mp hR
            refine ⟨j, by omega, by omega, ?_⟩
            rw [logVal_step he hlz, if_neg (show ¬ j ≤ (s + e) / 2 by omega)]
            exact hjk
        · rintro ⟨j, hj1, hj2, hjk⟩
          rw [logVal_step he hlz] at hjk
          by_cases hjm : j ≤ (s + e) / 2
          · rw [if_pos hjm] at hjk
            have hL := ihl.mpr ⟨j, by omega, by omega, hjk⟩
            omega
          · rw [if_neg hjm] at hjk
            have hR := ihr.mpr ⟨j, by omega, by omega, hjk⟩
            omega

end MaxSegmentTree

namespace MaxSegmentTree

/-- C2: on a tree state with valid range bookkeeping, the lazy invariant, and
no pending (lazy) updates outstanding at any node, `contains` (`is_there`,
acting directly on 0-based indices) returns 1 iff some index in `[qs, qe]`
holds value `k` (its logical value equals `k`); internally, at a leaf window
`check_total_overlap` returns 1 iff the leaf's value equals `k`, a node in
total overlap with value `< k` contributes 0, and at an internal window a
value equal to `k` short-circuits `check_total_overlap` to 1. -/
theorem c2_contains_exists (n : Nat) (st : MaxSegmentTree) (qs qe k : Nat)
    (hn : 1 ≤ n) (hsz : n ≤ st.size)
    (hro : rangeOkB st.size st.ranges 0 0 (n - 1) = true)
    (hinv : invB st.size st 0 0 (n - 1) = true)
    (hnl : noLazyB st.size st 0 0 (n - 1) = true)
    (hqe : qe ≤ n - 1) :
    (is_there st qs qe k = 1 ↔
      ∃ j, qs ≤ j ∧ j ≤ qe ∧ logVal st.size st 0 0 (n - 1) none j = k) ∧
    (∀ (f i s : Nat), check_total_overlap (f + 1) st i s s k =
      if st.tree i = k then 1 else 0) ∧
    (∀ (f i s e qs1 qe1 : Nat), st.ranges i = (s, e) → qs1 ≤ s → e ≤ qe1 →
      st.tree i < k → is_there_recursive (f + 1) st i qs1 qe1 k = 0) ∧
    (∀ (f i s e : Nat), s ≠ e → st.tree i = k →
      check_total_overlap (f + 1) st i s e k = 1) := by
  refine ⟨?_, ?_, ?_, ?_⟩
  · have hspec := is_there_rec_spec st.size st 0 0 (n - 1) qs qe k hro hinv hnl
      (by omega) (by omega)
    have hms : max 0 qs = qs := by omega
    have hme : min (n - 1) qe = qe := by omega
    rw [hms, hme] at hspec
    constructor
    · intro h1
      apply hspec.mp
      by_contra hnot
      simp only [is_there, if_neg hnot] at h1
      exact absurd h1 (by omega)
    · intro hx
      simp only [is_there, if_pos (hspec.mpr hx)]
  · intro f i s
    simp only [check_total_overlap, eq_self_iff_true, if_true]
  · intro f i s e qs1 qe1 hr hq1 hq2 hlt
    rw [ist_succ_total hr ⟨hq1, hq2⟩, if_pos hlt]
  · intro f i s e hne heq
    simp only [check_total_overlap, if_neg hne,
      if_neg (show ¬ st.tree i < k by omega), if_pos heq]

/-- Witness for C2: the freshly built tree over `[5, 7]` (no pending updates),
queried with `contains(0, 1, 7)`. -/
theorem c2_contains_exists_witness :
    1 ≤ 2 ∧ 2 ≤ (new [5, 7]).size ∧
    rangeOkB (new [5, 7]).size (new [5, 7]).ranges 0 0 (2 - 1) = true ∧
    invB (new [5, 7]).size (new [5, 7]) 0 0 (2 - 1) = true ∧
    noLazyB (new [5, 7]).size (new [5, 7]) 0 0 (2 - 1) = true ∧
    1 ≤ 2 - 1 ∧
    ((is_there (new [5, 7]) 0 1 7 = 1 ↔
      ∃ j, 0 ≤ j ∧ j ≤ 1 ∧
        logVal (new [5, 7]).size (new [5, 7]) 0 0 (2 - 1) none j = 7) ∧
     (∀ (f i s : Nat), check_total_overlap (f + 1) (new [5, 7]) i s s 7 =
       if (new [5, 7]).tree i = 7 then 1 else 0) ∧
     (∀ (f i s e qs1 qe1 : Nat), (new [5, 7]).ranges i = (s, e) → qs1 ≤ s →
       e ≤ qe1 → (new [5, 7]).tree i < 7 →
       is_there_recursive (f + 1) (new [5, 7]) i qs1 qe1 7 = 0) ∧
     (∀ (f i s e : Nat), s ≠ e → (new [5, 7]).tree i = 7 →
       check_total_overlap (f + 1) (new [5, 7]) i s e 7 = 1)) :=
  ⟨by decide, by decide, by decide, by decide, by decide, by decide,
    c2_contains_exists 2 (new [5, 7]) 0 1 7 (by decide) (by decide) (by decide)
      (by decide) (by decide) (by decide)⟩

end MaxSegmentTree

/-! ## C9: the 4n allocation bounds every accessed node index -/

namespace MaxSegmentTree

theorem NodeInv.root {n : Nat} (hn : 1 ≤ n) : NodeInv n 0 0 (n - 1) 0 := by
  simp only [NodeInv, pow_succ, pow_zero, one_mul]
  omega

theorem NodeInv.bound {n i s e d : Nat} (h : NodeInv n i s e d) (hn : 1 ≤ n) :
    i < 4 * n := by
  obtain ⟨h1, h2, h3⟩ := h
  rw [pow_succ] at h1
  have hp : 0 < 2 ^ d := pow_pos (by norm_num) d
  rcases h3 with h3 | h3 <;> omega

theorem NodeInv.stepL {n i s e d : Nat} (h : NodeInv n i s e d) (hse : s < e) :
    NodeInv n (get_left_child i) s ((s + e) / 2) (d + 1) := by
  obtain ⟨h1, h2, h3⟩ := h
  have hp : 0 < 2 ^ d := pow_pos (by norm_num) d
  have hkey : ((s + e) / 2 - s) * 2 ≤ e - s := by omega
  have hmul : ((s + e) / 2 - s) * 2 * 2 ^ d ≤ (e - s) * 2 ^ d :=
    mul_le_mul_right' hkey (2 ^ d)
  have hge : 2 ^ d ≤ (e - s) * 2 ^ d :=
    Nat.le_mul_of_pos_left (2 ^ d) (show 0 < e - s by omega)
  refine ⟨?_, ?_, Or.inr ?_⟩
  · simp only [get_left_child]
    rw [pow_succ] at h1
    rw [pow_succ, pow_succ]
    omega
  · rw [pow_succ]
    calc ((s + e) / 2 - s) * (2 ^ d * 2) = ((s + e) / 2 - s) * 2 * 2 ^ d := by ring
    _ ≤ (e - s) * 2 ^ d := hmul
    _ < n := h2
  · rw [pow_succ]
    omega

theorem NodeInv.stepR {n i s e d : Nat} (h : NodeInv n i s e d) (hse : s < e) :
    NodeInv n (get_right_child i) ((s + e) / 2 + 1) e (d + 1) := by
  obtain ⟨h1, h2, h3⟩ := h
  have hp : 0 < 2 ^ d := pow_pos (by norm_num) d
  have hkey : (e - ((s + e) / 2 + 1)) * 2 ≤ e - s := by omega
  have hmul : (e - ((s + e) / 2 + 1)) * 2 * 2 ^ d ≤ (e - s) * 2 ^ d :=
    mul_le_mul_right' hkey (2 ^ d)
  have hge : 2 ^ d ≤ (e - s) * 2 ^ d :=
    Nat.le_mul_of_pos_left (2 ^ d) (show 0 < e - s by omega)
  refine ⟨?_, ?_, Or.inr ?_⟩
  · simp only [get_right_child]
    rw [pow_succ] at h1
    rw [pow_succ, pow_succ]
    omega
  · rw [pow_succ]
    calc (e - ((s + e) / 2 + 1)) * (2 ^ d * 2) =
        (e - ((s + e) / 2 + 1)) * 2 * 2 ^ d := by ring
    _ ≤ (e - s) * 2 ^ d := hmul
    _ < n := h2
  · rw [pow_succ]
    omega

theorem nodesAcc_bound : ∀ (f n i s e d : Nat), NodeInv n i s e d → 1 ≤ n → s ≤ e →
    ∀ x ∈ nodesAcc f i s e, x < 4 * n := by
  intro f
  induction f with
  | zero =>
    intro n i s e d h hn hse x hx
    simp [nodesAcc] at hx
  | succ f ih =>
    intro n i s e d h hn hse x hx
    by_cases he : s = e
    · simp only [nodesAcc, if_pos he, List.mem_singleton] at hx
      subst hx
      exact h.bound hn
    · have hlt : s < e := by omega
      have hm1 : s ≤ (s + e) / 2 := mid_ge hse
      have hm2 : (s + e) / 2 < e := mid_lt hlt
      simp only [nodesAcc, if_neg he, List.mem_cons, List.mem_append] at hx
      rcases hx with hx | hx | hx | hx | hx
      · subst hx; exact h.bound hn
      · subst hx; exact (h.stepL hlt).bound hn
      · subst hx; exact (h.stepR hlt).bound hn
      · exact ih n (get_left_child i) s ((s + e) / 2) (d + 1) (h.stepL hlt) hn
          (by omega) x hx
      · exact ih n (get_right_child i) ((s + e) / 2 + 1) e (d + 1)
          (h.stepR hlt) hn (by omega) x hx

theorem ctoAcc_bound : ∀ (f n i s e d : Nat), NodeInv n i s e d → 1 ≤ n → s ≤ e →
    ∀ x ∈ ctoAcc f i s e, x < 4 * n := by
  intro f
  induction f with
  | zero =>
    intro n i s e d h hn hse x hx
    simp [ctoAcc] at hx
  | succ f ih =>
    intro n i s e d h hn hse x hx
    by_cases he : s = e
    · simp only [ctoAcc, if_pos he, List.mem_singleton] at hx
      subst hx
      exact h.bound hn
    · have hlt : s < e := by omega
      have hm1 : s ≤ (s + e) / 2 := mid_ge hse
      have hm2 : (s + e) / 2 < e := mid_lt hlt
      simp only [ctoAcc, if_neg he, List.mem_cons, List.mem_append] at hx
      rcases hx with hx | hx | hx
      · subst hx; exact h.bound hn
      · exact ih n (get_left_child i) s ((s + e) / 2) (d + 1) (h.stepL hlt) hn
          (by omega) x hx
      · exact ih n (get_right_child i) ((s + e) / 2 + 1) e (d + 1)
          (h.stepR hlt) hn (by omega) x hx

end MaxSegmentTree

namespace MaxSegmentTree

theorem travAcc_bound : ∀ (f : Nat) (st : MaxSegmentTree) (n i s e d qs qe : Nat),
    rangeOkB f st.ranges i s e = true → NodeInv n i s e d → 1 ≤ n → s ≤ e →
    ∀ x ∈ travAcc f st i qs qe, x < 4 * n := by
  intro f
  induction f with
  | zero =>
    intro st n i s e d qs qe hro h hn hse x hx
    simp [travAcc] at hx
  | succ f ih =>
    intro st n i s e d qs qe hro h hn hse x hx
    have hr : st.ranges i = (s, e) := rangeOkB_self hro
    have hbi : i < 4 * n := h.bound hn
    have hbl : s < e → get_left_child i < 4 * n :=
      fun hlt => (h.stepL hlt).bound hn
    have hbr : s < e → get_right_child i < 4 * n :=
      fun hlt => (h.stepR hlt).bound hn
    have hhere : ∀ y, y ∈ i ::
        (if s < e then [get_left_child i, get_right_child i] else []) →
        y < 4 * n := by
      intro y hy
      by_cases hlt : s < e
      · simp only [if_pos hlt, List.mem_cons, List.not_mem_nil, or_false] at hy
        rcases hy with hy | hy | hy
        · subst hy; exact hbi
        · subst hy; exact hbl hlt
        · subst hy; exact hbr hlt
      · simp only [if_neg hlt, List.mem_cons, List.not_mem_nil, or_false] at hy
        subst hy; exact hbi
    by_cases h1 : qs ≤ s ∧ e ≤ qe
    · simp only [travAcc, hr, if_pos h1] at hx
      exact hhere x hx
    · by_cases h2 : qe < s ∨ e < qs
      · simp only [travAcc, hr, if_neg h1, if_pos h2] at hx
        exact hhere x hx
      · have hlt : s < e := by omega
        obtain ⟨hrol, hror⟩ := rangeOkB_children hro (by omega)
        have hm1 : s ≤ (s + e) / 2 := mid_ge hse
        have hm2 : (s + e) / 2 < e := mid_lt hlt
        simp only [travAcc, hr, if_neg h1, if_neg h2, List.mem_append] at hx
        rcases hx with (hx | hx) | hx
        · exact hhere x hx
        · exact ih st n (get_left_child i) s ((s + e) / 2) (d + 1) qs
            (min ((s + e) / 2) qe) hrol (h.stepL hlt) hn (by omega) x hx
        · exact ih st n (get_right_child i) ((s + e) / 2 + 1) e (d + 1)
            (max ((s + e) / 2 + 1) qs) qe hror (h.stepR hlt) hn
            (by omega) x hx

theorem isThereAcc_bound : ∀ (f : Nat) (st : MaxSegmentTree) (n i s e d qs qe : Nat),
    rangeOkB f st.ranges i s e = true → NodeInv n i s e d → 1 ≤ n → s ≤ e →
    ∀ x ∈ isThereAcc f st i qs qe, x < 4 * n := by
  intro f
  induction f with
  | zero =>
    intro st n i s e d qs qe hro h hn hse x hx
    simp [isThereAcc] at hx
  | succ f ih =>
    intro st n i s e d qs qe hro h hn hse x hx
    have hr : st.ranges i = (s, e) := rangeOkB_self hro
    have hbi : i < 4 * n := h.bound hn
    by_cases h1 : qs ≤ s ∧ e ≤ qe
    · simp only [isThereAcc, hr, if_pos h1, List.mem_cons] at hx
      rcases hx with hx | hx
      · subst hx; exact hbi
      · exact ctoAcc_bound (f + 1) n i s e d h hn hse x hx
    · by_cases h2 : qe < s ∨ e < qs
      · simp only [isThereAcc, hr, if_neg h1, if_pos h2, List.mem_singleton] at hx
        subst hx; exact hbi
      · have hlt : s < e := by omega
        obtain ⟨hrol, hror⟩ := rangeOkB_children hro (by omega)
        have hm1 : s ≤ (s + e) / 2 := mid_ge hse
        have hm2 : (s + e) / 2 < e := mid_lt hlt
        simp only [isThereAcc, hr, if_neg h1, if_neg h2, List.mem_cons,
          List.mem_append] at hx
        rcases hx with hx | hx | hx
        · subst hx; exact hbi
        · exact ih st n (get_left_child i) s ((s + e) / 2) (d + 1) qs
            (min ((e + s) / 2) qe) hrol (h.stepL hlt) hn (by omega) x hx
        · exact ih st n (get_right_child i) ((s + e) / 2 + 1) e (d + 1)
            (max ((e + s) / 2 + 1) qs) qe hror (h.stepR hlt) hn
            (by omega) x hx

/-- C9: the three vectors are allocated at `4 n` slots (`new`), and for a
non-empty array of length `n` every node index accessed by the build
(`nodesAcc`, the access mirror of `build` as `new` invokes it) and by the
traversals of the subsequent operations — `travAcc`, the shared access mirror
of `range_update_recursive` / `range_max_query_lazy_recursive`, and
`isThereAcc`, the mirror of `is_there_recursive`, both over any state whose
`ranges` carry the build bookkeeping, as `ranges` is preserved by every
operation — is strictly below `4 n`. -/
theorem c9_allocation (A : List Nat) (st : MaxSegmentTree) (qs qe us ue : Nat)
    (hA : 1 ≤ A.length)
    (hro : rangeOkB st.size st.ranges 0 0 (A.length - 1) = true) :
    (new A).size = 4 * A.length ∧
    (∀ x ∈ nodesAcc A.length 0 0 (A.length - 1), x < 4 * A.length) ∧
    (∀ x ∈ travAcc st.size st 0 qs qe, x < 4 * A.length) ∧
    (∀ x ∈ isThereAcc st.size st 0 us ue, x < 4 * A.length) := by
  have hroot : NodeInv A.length 0 0 (A.length - 1) 0 := NodeInv.root hA
  refine ⟨(new_spec A hA).2.2.2.2, ?_, ?_, ?_⟩
  · exact fun x hx => nodesAcc_bound A.length A.length 0 0 (A.length - 1) 0 hroot
      hA (by omega) x hx
  · exact fun x hx => travAcc_bound st.size st A.length 0 0 (A.length - 1) 0 qs qe
      hro hroot hA (by omega) x hx
  · exact fun x hx => isThereAcc_bound st.size st A.length 0 0 (A.length - 1) 0
      us ue hro hroot hA (by omega) x hx

/-- Witness for C9: the array `[5, 7]` and its freshly built tree, with the
query window `[0, 1]` for both traversal mirrors. -/
theorem c9_allocation_witness :
    1 ≤ ([5, 7] : List Nat).length ∧
    rangeOkB (new [5, 7]).size (new [5, 7]).ranges 0 0
      (([5, 7] : List Nat).length - 1) = true ∧
    ((new [5, 7]).size = 4 * ([5, 7] : List Nat).length ∧
     (∀ x ∈ nodesAcc ([5, 7] : List Nat).length 0 0
        (([5, 7] : List Nat).length - 1), x < 4 * ([5, 7] : List Nat).length) ∧
     (∀ x ∈ travAcc (new [5, 7]).size (new [5, 7]) 0 0 1,
        x < 4 * ([5, 7] : List Nat).length) ∧
     (∀ x ∈ isThereAcc (new [5, 7]).size (new [5, 7]) 0 0 1,
        x < 4 * ([5, 7] : List Nat).length)) :=
  ⟨by decide, by decide,
    c9_allocation [5, 7] (new [5, 7]) 0 1 0 1 (by decide) (by decide)⟩

end MaxSegmentTree
